import Mathlib

/-!
Shallow embedding of the aggregation logic of the freckle-project-indicators
repository.  The repository contains two revisions of the program:

* the current revision (README plus Go source; the one with the
  TimeAggregater abstraction and the period command line flag), embedded in
  the root namespace below, and
* an older revision (main.go, month-only aggregation), embedded in the
  namespace mainGo.

Go machine integers are modelled as Int, float64 currency amounts as exact
rationals, the (value, error) return idiom as Except, and Go maps as
association lists iterated in key insertion order (Go map iteration order is
unspecified; every property proved here is insensitive to that order).
-/

/-- Errors produced by the embedded code: a time.Parse failure carrying the
layout and the offending value, the two strconv.Atoi failure modes, and a
method call on a nil interface (which in Go would panic; it is proved
unreachable where it matters). -/
inductive GoErr where
  | parse (layout : String) (value : String)
  | atoiInvalid
  | atoiRange
  | nilMethodCall
deriving DecidableEq, Repr

/-- Model of a Go time.Time as used by this program: calendar fields,
time of day, and a flag recording that the location is UTC.  Every
time.Time the program builds is in UTC. -/
structure GoTime where
  year : Int
  month : Int
  day : Int
  hour : Int
  minute : Int
  second : Int
  utc : Bool
deriving DecidableEq, Repr

/-- The zero value of Go time.Time: January 1, year 1, 00:00:00 UTC. -/
def goTimeZero : GoTime := ⟨1, 1, 1, 0, 0, 0, true⟩

/-! ### Decimal formatting and parsing (fmt.Sprintf %d / %02d, strconv.Atoi)

Numerals are modelled as a sign flag plus the list of decimal digit values,
most significant first, exactly the information content of the strings the
source builds with Sprintf and feeds to Atoi. -/

/-- Little-endian decimal digits of a natural number, with explicit fuel so
that the definition is structurally recursive and kernel-reducible. -/
def digitsRev : Nat → Nat → List Nat
  | 0, _ => []
  | f + 1, n => if n = 0 then [] else (n % 10) :: digitsRev f (n / 10)

/-- The decimal digit string of a natural number, most significant digit
first, as produced by the %d verb (0 prints as the single digit 0). -/
def fmtNat (n : Nat) : List Nat :=
  if n = 0 then [0] else (digitsRev n n).reverse

/-- The digit string produced by the %02d verb for a natural number:
left padded with a zero to width two. -/
def fmtNat02 (n : Nat) : List Nat :=
  if n < 10 then [0, n] else fmtNat n

/-- A decimal numeral string: sign and digits, most significant first. -/
structure Numeral where
  neg : Bool
  digits : List Nat
deriving DecidableEq, Repr

/-- The numeral printed by fmt.Sprintf %d for a Go int. -/
def sprintfD (i : Int) : Numeral := ⟨i < 0, fmtNat i.natAbs⟩

/-- The string printed by fmt.Sprintf with verbs %d%02d for two Go ints,
viewed as a numeral when it is one: when the second int is negative the
string has an interior minus sign and is not a numeral (strconv.Atoi
would reject it), which is modelled as none. -/
def sprintfDD02 (y m : Int) : Option Numeral :=
  if m < 0 then none
  else some ⟨y < 0, fmtNat y.natAbs ++ fmtNat02 m.natAbs⟩

/-- The numeric value of a digit list, most significant first, by the
left fold strconv.Atoi performs. -/
def atoiVal (ds : List Nat) : Nat :=
  ds.foldl (fun a d => a * 10 + d) 0

/-- Model of strconv.Atoi on a numeral string: rejects the empty digit
string, and rejects values outside the signed 64 bit range. -/
def goAtoi : Option Numeral → Except GoErr Int
  | none => .error .atoiInvalid
  | some n =>
    if n.digits = [] then .error .atoiInvalid
    else
      let v : Nat := atoiVal n.digits
      if n.neg then
        if v ≤ 2 ^ 63 then .ok (-(v : Int)) else .error .atoiRange
      else
        if v < 2 ^ 63 then .ok (v : Int) else .error .atoiRange

/-! ### Calendar arithmetic (time.Date, time.Parse) -/

/-- Leap year rule used by the Go time package. -/
def isLeap (y : Int) : Bool :=
  (y % 4 = 0 && y % 100 != 0) || y % 400 = 0

/-- Number of days of a month (month expected in 1..12 after
normalisation). -/
def daysInMonth (y m : Int) : Int :=
  if m = 2 then (if isLeap y then 29 else 28)
  else if m = 4 ∨ m = 6 ∨ m = 9 ∨ m = 11 then 30
  else 31

/-- Month normalisation performed by time.Date: brings the month into
1..12, carrying whole years, with the truncated integer division Go uses. -/
def normMonth (y m : Int) : Int × Int :=
  let m0 := m - 1
  let y1 := y + m0.tdiv 12
  let m1 := m0.tmod 12
  if m1 < 0 then (y1 - 1, m1 + 12 + 1) else (y1, m1 + 1)

/-- Day normalisation performed by time.Date (via its absolute-day
encoding): an out of range day borrows from or carries into adjacent
months.  Written with fuel to keep the recursion structural; the fuel
chosen in goDate always suffices for the day offsets this program uses. -/
def normDay : Nat → Int → Int → Int → Int × Int × Int
  | 0, y, m, d => (y, m, d)
  | f + 1, y, m, d =>
    if d < 1 then
      let y2 := if m = 1 then y - 1 else y
      let m2 := if m = 1 then 12 else m - 1
      normDay f y2 m2 (d + daysInMonth y2 m2)
    else if d > daysInMonth y m then
      let y2 := if m = 12 then y + 1 else y
      let m2 := if m = 12 then 1 else m + 1
      normDay f y2 m2 (d - daysInMonth y m)
    else (y, m, d)

/-- Model of time.Date(year, month, day, hour, min, sec, 0, time.UTC):
normalises month and day.  Every call site in this program passes a zero
time of day, so time-of-day normalisation never has anything to do. -/
def goDate (y m d hh mm ss : Int) : GoTime :=
  let (y1, m1) := normMonth y m
  let (y2, m2, d2) := normDay (d.natAbs + 24) y1 m1 d
  ⟨y2, m2, d2, hh, mm, ss, true⟩

/-- Decimal digit value of a character, when it is a digit. -/
def digitVal (c : Char) : Option Nat :=
  if c.toNat ≥ 48 ∧ c.toNat ≤ 57 then some (c.toNat - 48) else none

/-- Model of time.Parse with layout 2006-01-02: exactly four year digits,
a dash, two month digits, a dash, two day digits, with the month in 1..12
and the day within the month (time.Parse rejects out of range values).
The resulting time has a zero time of day and is in UTC. -/
def parseDate (s : String) : Option GoTime :=
  match s.data with
  | [y1, y2, y3, y4, c1, m1, m2, c2, d1, d2] =>
    if c1 = ('-' : Char) ∧ c2 = ('-' : Char) then
      match digitVal y1, digitVal y2, digitVal y3, digitVal y4,
            digitVal m1, digitVal m2, digitVal d1, digitVal d2 with
      | some a, some b, some c, some d, some e, some f, some g, some h =>
        let yr : Int := ((a * 10 + b) * 10 + c) * 10 + d
        let mo : Int := e * 10 + f
        let dy : Int := g * 10 + h
        if 1 ≤ mo ∧ mo ≤ 12 ∧ 1 ≤ dy ∧ dy ≤ daysInMonth yr mo then
          some ⟨yr, mo, dy, 0, 0, 0, true⟩
        else none
      | _, _, _, _, _, _, _, _ => none
    else none
  | _ => none

/-- The layout string the source passes to time.Parse. -/
def dateLayout : String := "2006-01-02"

/-- time.Parse as used by the source, in the Except form of the Go
(value, error) pair, the error carrying layout and offending value. -/
def parseGoDate (s : String) : Except GoErr GoTime :=
  match parseDate s with
  | some t => .ok t
  | none => .error (.parse dateLayout s)

/-! ### The freckle API data the program consumes -/

/-- go-freckle Participant, the fields this program reads. -/
structure Participant where
  id : Int
  first_name : String
  last_name : String
  email : String
deriving DecidableEq, Repr

/-- go-freckle Entry, the fields this program reads. -/
structure Entry where
  user : Participant
  date : String
  minutes : Int
  billable : Bool
deriving DecidableEq, Repr

/-- go-freckle Invoice, the fields this program reads. -/
structure Invoice where
  invoice_date : String
  total_amount : ℚ
deriving DecidableEq, Repr

/-- go-freckle Project, the fields this program reads. -/
structure Project where
  name : String
  billable_minutes : Int
  unbillable_minutes : Int
  invoiced_minutes : Int
  invoices : List Invoice
deriving DecidableEq, Repr

/-! ### sanitizeMetricName -/

/-- strings.Replace(s, old, new, -1) for one-character patterns: replace
every occurrence. -/
def replaceChar (a b : Char) (s : List Char) : List Char :=
  s.map fun c => if c = a then b else c

/-- strings.Replace(s, old, "", -1) for one-character patterns: delete
every occurrence. -/
def removeChar (a : Char) (s : List Char) : List Char :=
  s.filter fun c => c ≠ a

/-- The six sequential strings.Replace passes of sanitizeMetricName:
spaces, slashes and backslashes become dashes; hash and parentheses are
deleted. -/
def sanitizeChars (s : List Char) : List Char :=
  removeChar (')' : Char)
    (removeChar ('(' : Char)
      (removeChar ('#' : Char)
        (replaceChar ('\\' : Char) ('-' : Char)
          (replaceChar ('/' : Char) ('-' : Char)
            (replaceChar (' ' : Char) ('-' : Char) s)))))

/-- sanitizeMetricName from the source, on Strings. -/
def sanitizeMetricName (s : String) : String :=
  ⟨sanitizeChars s.data⟩

/-! ### The TimeAggregater interface and its two implementations -/

/-- The two implementations of the TimeAggregater interface: MonthAgg and
YearAgg. -/
inductive TAgg where
  | month
  | year
deriving DecidableEq, Repr

/-- %02d rendering of a Go int as a String (months are in 1..12 at every
call site, and nonnegative ints of one digit get a leading zero). -/
def pad2 (i : Int) : String :=
  if 0 ≤ i ∧ i < 10 then "0" ++ toString i else toString i

/-- GetInt of MonthAgg and YearAgg: Sprintf the year (and for months a
two-digit month) and parse the string back with strconv.Atoi. -/
def TAgg.GetInt : TAgg → GoTime → Except GoErr Int
  | .month, t => goAtoi (sprintfDD02 t.year t.month)
  | .year, t => goAtoi (some (sprintfD t.year))

/-- GetString of MonthAgg and YearAgg: the display label. -/
def TAgg.GetString : TAgg → GoTime → String
  | .month, t => toString t.year ++ "-" ++ pad2 t.month
  | .year, t => toString t.year

/-- GetPeriod of MonthAgg and YearAgg: time.Date at the first day of the
month, respectively the year, zero time of day, UTC. -/
def TAgg.GetPeriod : TAgg → GoTime → GoTime
  | .month, t => goDate t.year t.month 1 0 0 0
  | .year, t => goDate t.year 1 1 0 0 0

/-- Calling GetInt through a TimeAggregater interface value that may be
nil (the zero value of the structs that embed one).  A call on nil would
panic in Go; it is proved unreachable on every value the program builds. -/
def optGetInt : Option TAgg → GoTime → Except GoErr Int
  | some tg, t => tg.GetInt t
  | none, _ => .error .nilMethodCall

/-! ### Participant aggregation -/

/-- ParticipantKpi: a freckle Participant enriched with billable and
unbillable minute totals. -/
structure ParticipantKpi where
  user : Participant
  billableMinutes : Int
  unbillableMinutes : Int
deriving DecidableEq, Repr

/-- Total minutes of a ParticipantKpi, the sort key of ParticipantKpis. -/
def ParticipantKpi.total (p : ParticipantKpi) : Int :=
  p.billableMinutes + p.unbillableMinutes

/-- The body of the entry loops: add the minutes of one entry to the
billable or unbillable total, as dictated by the Billable flag. -/
def entryApply (pkpi : ParticipantKpi) (e : Entry) : ParticipantKpi :=
  if e.billable then
    { pkpi with billableMinutes := pkpi.billableMinutes + e.minutes }
  else
    { pkpi with unbillableMinutes := pkpi.unbillableMinutes + e.minutes }

/-- Lookup in a Go map modelled as an association list. -/
def alistFind {β : Type} (k : Int) : List (Int × β) → Option β
  | [] => none
  | (k0, v0) :: rest => if k0 = k then some v0 else alistFind k rest

/-- Store in a Go map modelled as an association list: overwrite the
binding when the key is present, append it when it is new. -/
def alistInsert {β : Type} (k : Int) (v : β) : List (Int × β) → List (Int × β)
  | [] => [(k, v)]
  | (k0, v0) :: rest =>
    if k0 = k then (k0, v) :: rest else (k0, v0) :: alistInsert k v rest

/-- sort.Sort(sort.Reverse(ParticipantKpis)): descending by total
minutes (the comparator of ParticipantKpis.Less, reversed). -/
def sortDescByTotal (l : List ParticipantKpi) : List ParticipantKpi :=
  l.mergeSort fun a b => decide (b.total ≤ a.total)

/-- sort.Ints: ascending. -/
def sortInts (l : List Int) : List Int :=
  l.mergeSort fun a b => decide (a ≤ b)

/-- The accumulation loop of GetParticipantKpis over the participantsMap:
look the entry author up by Id, starting a new ParticipantKpi at (0, 0)
for an unseen Id, and add the entry minutes. -/
def participantLoop : List Entry → List (Int × ParticipantKpi) → List (Int × ParticipantKpi)
  | [], acc => acc
  | e :: rest, acc =>
    let pkpi := (alistFind e.user.id acc).getD ⟨e.user, 0, 0⟩
    participantLoop rest (alistInsert e.user.id (entryApply pkpi e) acc)

/-- GetParticipantKpis from the source: fold the entries into the map,
collect the map values, and sort them descending by total minutes. -/
def GetParticipantKpis (fes : List Entry) : List ParticipantKpi :=
  sortDescByTotal ((participantLoop fes []).map Prod.snd)

/-! ### Invoice aggregation per period -/

/-- InvoicePeriodKpi: the per-period invoiced amount, with the
TimeAggregater interface value used to render it (nil in the zero
value). -/
structure InvoicePeriodKpi where
  timeAgg : Option TAgg
  period : GoTime
  amount : ℚ
deriving DecidableEq, Repr

/-- The zero value of InvoicePeriodKpi: nil interface, zero time, 0. -/
def zeroIK : InvoicePeriodKpi := ⟨none, goTimeZero, 0⟩

/-- The loop of GetInvoiceKpiPerPeriod: parse each invoice date, compute
its period key, and accumulate the invoice amount into that key of the
agrregateInvoices map, recording each new key in the keys list. -/
def invoiceLoop (tagg : TAgg) :
    List Invoice → List (Int × InvoicePeriodKpi) × List Int →
    Except GoErr (List (Int × InvoicePeriodKpi) × List Int)
  | [], st => .ok st
  | invoice :: rest, (m, keys) => do
    let t ← parseGoDate invoice.invoice_date
    let key ← tagg.GetInt t
    let ik := (alistFind key m).getD zeroIK
    let keys1 := if (alistFind key m).isSome then keys else keys ++ [key]
    let ik1 : InvoicePeriodKpi :=
      { timeAgg := some tagg, period := tagg.GetPeriod t,
        amount := ik.amount + invoice.total_amount }
    invoiceLoop tagg rest (alistInsert key ik1 m, keys1)

/-- GetInvoiceKpiPerPeriod from the source: run the loop, sort the keys
ascending, and emit the map entries in sorted key order. -/
def GetInvoiceKpiPerPeriod (tagg : TAgg) (fis : List Invoice) :
    Except GoErr (List InvoicePeriodKpi) := do
  let (m, keys) ← invoiceLoop tagg fis ([], [])
  return (sortInts keys).map fun k => (alistFind k m).getD zeroIK

/-- GetInvoiceKpiPerMonth from the source. -/
def GetInvoiceKpiPerMonth (fis : List Invoice) : Except GoErr (List InvoicePeriodKpi) :=
  GetInvoiceKpiPerPeriod .month fis

/-- GetInvoiceKpiPerYear from the source. -/
def GetInvoiceKpiPerYear (fis : List Invoice) : Except GoErr (List InvoicePeriodKpi) :=
  GetInvoiceKpiPerPeriod .year fis

/-! ### Participant aggregation per period -/

/-- ParticipantsPeriod: the ParticipantKpi list of one period. -/
structure ParticipantsPeriod where
  timeAgg : Option TAgg
  period : GoTime
  participants : List ParticipantKpi
deriving DecidableEq, Repr

/-- The zero value of ParticipantsPeriod. -/
def zeroPP : ParticipantsPeriod := ⟨none, goTimeZero, []⟩

/-- The inner scan of GetParticipantsPeriodPerPeriod over
pk.Participants: update in place the first ParticipantKpi whose Id
matches the entry author, or append a fresh one initialised with the
entry minutes. -/
def addEntryToParts (e : Entry) : List ParticipantKpi → List ParticipantKpi
  | [] => [entryApply ⟨e.user, 0, 0⟩ e]
  | p :: rest =>
    if p.user.id = e.user.id then entryApply p e :: rest
    else p :: addEntryToParts e rest

/-- The loop of GetParticipantsPeriodPerPeriod over the
dedupParticipants map. -/
def participantsPeriodLoop (tagg : TAgg) :
    List Entry → List (Int × ParticipantsPeriod) × List Int →
    Except GoErr (List (Int × ParticipantsPeriod) × List Int)
  | [], st => .ok st
  | e :: rest, (m, keys) => do
    let t ← parseGoDate e.date
    let key ← tagg.GetInt t
    let pk := (alistFind key m).getD zeroPP
    let keys1 := if (alistFind key m).isSome then keys else keys ++ [key]
    let pk1 : ParticipantsPeriod :=
      { timeAgg := some tagg, period := tagg.GetPeriod t,
        participants := addEntryToParts e pk.participants }
    participantsPeriodLoop tagg rest (alistInsert key pk1 m, keys1)

/-- GetParticipantsPeriodPerPeriod from the source: run the loop, then
emit the map values with each participant list sorted descending by
total minutes (the final range over the map; the keys list the source
also accumulates is never read). -/
def GetParticipantsPeriodPerPeriod (tagg : TAgg) (fes : List Entry) :
    Except GoErr (List ParticipantsPeriod) := do
  let (m, _keys) ← participantsPeriodLoop tagg fes ([], [])
  return m.map fun kv =>
    { kv.2 with participants := sortDescByTotal kv.2.participants }

/-- GetParticipantsPeriodPerMonth from the source. -/
def GetParticipantsPeriodPerMonth (fes : List Entry) : Except GoErr (List ParticipantsPeriod) :=
  GetParticipantsPeriodPerPeriod .month fes

/-- GetParticipantsPeriodPerYear from the source. -/
def GetParticipantsPeriodPerYear (fes : List Entry) : Except GoErr (List ParticipantsPeriod) :=
  GetParticipantsPeriodPerPeriod .year fes

/-! ### Project aggregation -/

/-- ProjectKpi: a freckle Project enriched with its detailed entries. -/
structure ProjectKpi where
  project : Project
  detailedEntries : List Entry
deriving DecidableEq, Repr

/-- GetInvoicedTotal from the source: the running sum of the
TotalAmount of every invoice of the project. -/
def ProjectKpi.GetInvoicedTotal (pi : ProjectKpi) : ℚ :=
  pi.project.invoices.foldl (fun a invoice => a + invoice.total_amount) 0

/-- ProjectPeriodKpi: the merged per-period record of one project. -/
structure ProjectPeriodKpi where
  name : String
  timeAgg : Option TAgg
  period : GoTime
  invoice : InvoicePeriodKpi
  participants : List ParticipantKpi
deriving DecidableEq, Repr

/-- The zero value of ProjectPeriodKpi. -/
def zeroPPM : ProjectPeriodKpi := ⟨"", none, goTimeZero, zeroIK, []⟩

/-- The first merge loop of GetProjectKpiPerPeriod: store each per-period
invoice summary under its period key, keeping whatever participants an
existing binding already holds. -/
def projectInvoiceLoop (tagg : TAgg) (name : String) :
    List InvoicePeriodKpi → List (Int × ProjectPeriodKpi) × List Int →
    Except GoErr (List (Int × ProjectPeriodKpi) × List Int)
  | [], st => .ok st
  | invoice :: rest, (m, keys) => do
    let key ← optGetInt invoice.timeAgg invoice.period
    let ppm := (alistFind key m).getD zeroPPM
    let keys1 := if (alistFind key m).isSome then keys else keys ++ [key]
    let ppm1 : ProjectPeriodKpi :=
      { ppm with name := name, timeAgg := some tagg,
                 period := invoice.period, invoice := invoice }
    projectInvoiceLoop tagg name rest (alistInsert key ppm1 m, keys1)

/-- The second merge loop of GetProjectKpiPerPeriod: store each
per-period participant list under its period key, keeping whatever
invoice summary an existing binding already holds. -/
def projectParticipantsLoop (tagg : TAgg) (name : String) :
    List ParticipantsPeriod → List (Int × ProjectPeriodKpi) × List Int →
    Except GoErr (List (Int × ProjectPeriodKpi) × List Int)
  | [], st => .ok st
  | pp :: rest, (m, keys) => do
    let key ← optGetInt pp.timeAgg pp.period
    let ppm := (alistFind key m).getD zeroPPM
    let keys1 := if (alistFind key m).isSome then keys else keys ++ [key]
    let ppm1 : ProjectPeriodKpi :=
      { ppm with name := name, timeAgg := some tagg,
                 period := pp.period, participants := pp.participants }
    projectParticipantsLoop tagg name rest (alistInsert key ppm1 m, keys1)

/-- GetProjectKpiPerPeriod from the source: aggregate invoices and
participants per period, merge both into one map keyed by period key,
and emit the merged records in ascending key order. -/
def GetProjectKpiPerPeriod (tagg : TAgg) (p : ProjectKpi) :
    Except GoErr (List ProjectPeriodKpi) := do
  let invoiceAmonthPerPeriod ← GetInvoiceKpiPerPeriod tagg p.project.invoices
  let participantKpiPerPeriod ← GetParticipantsPeriodPerPeriod tagg p.detailedEntries
  let (m1, keys1) ← projectInvoiceLoop tagg p.project.name invoiceAmonthPerPeriod ([], [])
  let (m2, keys2) ← projectParticipantsLoop tagg p.project.name participantKpiPerPeriod (m1, keys1)
  return (sortInts keys2).map fun k => (alistFind k m2).getD zeroPPM

/-- GetProjectKpiPerMonth from the source. -/
def GetProjectKpiPerMonth (p : ProjectKpi) : Except GoErr (List ProjectPeriodKpi) :=
  GetProjectKpiPerPeriod .month p

/-- GetProjectKpiPerYear from the source. -/
def GetProjectKpiPerYear (p : ProjectKpi) : Except GoErr (List ProjectPeriodKpi) :=
  GetProjectKpiPerPeriod .year p

/-! ### The older revision (main.go) -/

namespace mainGo

/-- InvoicePeriodKpi of the older revision: no TimeAggregater field. -/
structure InvoicePeriodKpi where
  period : GoTime
  amount : ℚ
deriving DecidableEq, Repr

/-- The zero value of the older InvoicePeriodKpi. -/
def zeroIK : InvoicePeriodKpi := ⟨goTimeZero, 0⟩

/-- The loop of the older GetInvoiceKpiPerMonth: the month key is the
same Sprintf plus Atoi computation, but the recorded period is
time.Date(year, month, 0, ...) whose day 0 normalises to the last day of
the previous month. -/
def invoiceLoop :
    List Invoice → List (Int × InvoicePeriodKpi) × List Int →
    Except GoErr (List (Int × InvoicePeriodKpi) × List Int)
  | [], st => .ok st
  | invoice :: rest, (m, keys) => do
    let t ← parseGoDate invoice.invoice_date
    let key ← goAtoi (sprintfDD02 t.year t.month)
    let ik := (alistFind key m).getD zeroIK
    let keys1 := if (alistFind key m).isSome then keys else keys ++ [key]
    let ik1 : InvoicePeriodKpi :=
      { period := goDate t.year t.month 0 0 0 0,
        amount := ik.amount + invoice.total_amount }
    invoiceLoop rest (alistInsert key ik1 m, keys1)

/-- GetInvoiceKpiPerMonth of the older revision (main.go). -/
def GetInvoiceKpiPerMonth (fis : List Invoice) : Except GoErr (List InvoicePeriodKpi) := do
  let (m, keys) ← invoiceLoop fis ([], [])
  return (sortInts keys).map fun k => (alistFind k m).getD zeroIK

end mainGo

/-! ### Presentation, metrics and the report loop of main -/

/-- A librato gauge as this program fills it in: name, source label, and
the submitted value. -/
structure Gauge where
  gname : String
  source : String
  sum : ℚ
deriving DecidableEq, Repr

/-- ParticipantKpi.RegisterMetrics: two gauges named from the prefix and
the participant name, with a sanitised source label. -/
def registerParticipantMetrics (p : ParticipantKpi) (pfx source : String)
    (m : List Gauge) : List Gauge :=
  let source := sanitizeMetricName source
  m ++ [⟨pfx ++ ".UnbillableMinutes." ++ p.user.first_name ++ "-" ++ p.user.last_name,
         source, (p.unbillableMinutes : ℚ)⟩,
        ⟨pfx ++ ".BillableMinutes." ++ p.user.first_name ++ "-" ++ p.user.last_name,
         source, (p.billableMinutes : ℚ)⟩]

/-- ProjectKpi.RegisterMetrics: four gauges sourced at the sanitised
project name. -/
def registerProjectMetrics (pi : ProjectKpi) (m : List Gauge) : List Gauge :=
  let prjName := sanitizeMetricName pi.project.name
  m ++ [⟨"FreckleAPI.projects.UnbillableMinutes", prjName, (pi.project.unbillable_minutes : ℚ)⟩,
        ⟨"FreckleAPI.projects.BillableMinutes", prjName, (pi.project.billable_minutes : ℚ)⟩,
        ⟨"FreckleAPI.projects.InvoicedMinutes", prjName, (pi.project.invoiced_minutes : ℚ)⟩,
        ⟨"FreckleAPI.projects.InvoicedAmount", prjName, pi.GetInvoicedTotal⟩]

/-- Rendering of TimeAggregater.GetString through a possibly nil
interface value (the source only calls it on non-nil values). -/
def optGetString : Option TAgg → GoTime → String
  | some tg, t => tg.GetString t
  | none, _ => ""

/-- ProjectPeriodKpi.RegisterMetrics: one invoiced-amount gauge and the
summed billable and unbillable minutes of the period participants,
sourced at the period label. -/
def registerProjectPeriodMetrics (pp : ProjectPeriodKpi) (pfx : String)
    (m : List Gauge) : List Gauge :=
  let prjName := sanitizeMetricName pp.name
  let source := optGetString pp.timeAgg pp.period
  let billableMin := (pp.participants.map (·.billableMinutes)).sum
  let unbillableMin := (pp.participants.map (·.unbillableMinutes)).sum
  m ++ [⟨pfx ++ ".InvoicedAmount." ++ prjName, source, pp.invoice.amount⟩,
        ⟨pfx ++ ".UnbillableMinutes." ++ prjName, source, (unbillableMin : ℚ)⟩,
        ⟨pfx ++ ".BillableMinutes." ++ prjName, source, (billableMin : ℚ)⟩]

/-- One line of standard output of the report loop, tagged by which
Println produced it, carrying the identifying payload of the rendered
value (the full numeric formatting of String() is not modelled; the
claims only concern which lines are printed). -/
inductive OutLine where
  | projectLine (name : String)
  | participantLine (email : String)
  | breakdownHeader (granularity : String)
  | periodLine (label : String)
  | periodParticipantLine (email : String)
  | usageOptions
  | usageBadChoice (flagValue : String)
  | fatalLog
deriving DecidableEq, Repr

/-- Exit behaviour of the report loop: run to completion (the process
then exits 0 after the librato step), or exit the process with the
failure status (os.Exit(exitCodeNotOk) on a bad period flag, log.Fatal
on an aggregation error, both status 1). -/
inductive ExitCode where
  | completed
  | failed
deriving DecidableEq, Repr

/-- The per-period printing of one project breakdown: the period line
then one line per participant. -/
def breakdownLines (ppms : List ProjectPeriodKpi) : List OutLine :=
  ppms.flatMap fun ppm =>
    OutLine.periodLine (optGetString ppm.timeAgg ppm.period) ::
      ppm.participants.map fun participant => OutLine.periodParticipantLine participant.user.email

/-- The report loop of main (the for loop over the fetched projects):
prints each project summary and its ranked participants, registers their
metrics, then switches on the period flag, where an invalid value prints
the two usage lines and exits with the failure status.  Fetching and the
environment checks that precede this loop are external collaborators and
are not modelled. -/
def runProjects (timeAggFlag : String) (metrics : List Gauge) :
    List ProjectKpi → List OutLine × List Gauge × ExitCode
  | [] => ([], metrics, .completed)
  | project :: rest =>
    let pkis := GetParticipantKpis project.detailedEntries
    let lines0 := OutLine.projectLine project.project.name ::
      pkis.map fun p => OutLine.participantLine p.user.email
    let metrics0 := registerProjectMetrics project metrics
    let metrics1 := pkis.foldl
      (fun m p => registerParticipantMetrics p ("FreckleAPI.participants") project.project.name m)
      metrics0
    if timeAggFlag = ("month" : String) then
      match GetProjectKpiPerMonth project with
      | .error _ => (lines0 ++ [.fatalLog], metrics1, .failed)
      | .ok ppms =>
        let (linesR, metricsR, code) := runProjects timeAggFlag metrics1 rest
        (lines0 ++ (OutLine.breakdownHeader ("month") :: breakdownLines ppms) ++ linesR,
         metricsR, code)
    else if timeAggFlag = ("year" : String) then
      match GetProjectKpiPerYear project with
      | .error _ => (lines0 ++ [.fatalLog], metrics1, .failed)
      | .ok ppms =>
        let metrics2 := ppms.foldl
          (fun m ppm => registerProjectPeriodMetrics ppm ("FreckleAPI.yearlyParticipants") m)
          metrics1
        let (linesR, metricsR, code) := runProjects timeAggFlag metrics2 rest
        (lines0 ++ (OutLine.breakdownHeader ("year") :: breakdownLines ppms) ++ linesR,
         metricsR, code)
    else
      (lines0 ++ [.usageOptions, .usageBadChoice timeAggFlag], metrics1, .failed)

/-! ### Lemmas about sanitizeMetricName -/

theorem not_mem_replaceChar {a b : Char} (l : List Char) (hab : b ≠ a) :
    a ∉ replaceChar a b l := by
  intro h
  rcases List.mem_map.1 h with ⟨c, _, hc⟩
  by_cases hca : c = a
  · simp [hca] at hc
    exact hab hc
  · simp [hca] at hc

theorem mem_replaceChar_of_ne {a b c : Char} {l : List Char}
    (h : c ∉ l) (hcb : c ≠ b) : c ∉ replaceChar a b l := by
  intro hmem
  rcases List.mem_map.1 hmem with ⟨d, hd, hdc⟩
  by_cases hda : d = a
  · simp [hda] at hdc
    exact hcb hdc.symm
  · simp [hda] at hdc
    exact h (hdc ▸ hd)

theorem not_mem_removeChar (a : Char) (l : List Char) : a ∉ removeChar a l := by
  intro h
  have := (List.mem_filter.1 h).2
  simp at this

theorem mem_removeChar_of_ne {a c : Char} {l : List Char}
    (h : c ∉ l) : c ∉ removeChar a l := by
  intro hmem
  exact h (List.mem_filter.1 hmem).1

theorem replaceChar_eq_self {a b : Char} {l : List Char} (h : a ∉ l) :
    replaceChar a b l = l := by
  unfold replaceChar
  rw [List.map_congr_left, List.map_id]
  intro c hc
  have : c ≠ a := fun hca => h (hca ▸ hc)
  simp [this]

theorem removeChar_eq_self {a : Char} {l : List Char} (h : a ∉ l) :
    removeChar a l = l := by
  unfold removeChar
  rw [List.filter_eq_self]
  intro c hc
  have : c ≠ a := fun hca => h (hca ▸ hc)
  simp [this]

/-- The characters a sanitised metric name never contains. -/
theorem sanitizeChars_not_mem (s : List Char) :
    (' ' : Char) ∉ sanitizeChars s ∧ ('/' : Char) ∉ sanitizeChars s ∧
    ('\\' : Char) ∉ sanitizeChars s ∧ ('#' : Char) ∉ sanitizeChars s ∧
    ('(' : Char) ∉ sanitizeChars s ∧ (')' : Char) ∉ sanitizeChars s := by
  unfold sanitizeChars
  refine ⟨?_, ?_, ?_, ?_, ?_, ?_⟩
  · exact mem_removeChar_of_ne (mem_removeChar_of_ne (mem_removeChar_of_ne
      (mem_replaceChar_of_ne (mem_replaceChar_of_ne
        (not_mem_replaceChar s (by decide)) (by decide)) (by decide))))
  · exact mem_removeChar_of_ne (mem_removeChar_of_ne (mem_removeChar_of_ne
      (mem_replaceChar_of_ne
        (not_mem_replaceChar _ (by decide)) (by decide))))
  · exact mem_removeChar_of_ne (mem_removeChar_of_ne (mem_removeChar_of_ne
      (not_mem_replaceChar _ (by decide))))
  · exact mem_removeChar_of_ne (mem_removeChar_of_ne (not_mem_removeChar _ _))
  · exact mem_removeChar_of_ne (not_mem_removeChar _ _)
  · exact not_mem_removeChar _ _

/-- Sanitisation is idempotent on character lists: a second pass finds
none of the six characters and is the identity. -/
theorem sanitizeChars_idem (s : List Char) :
    sanitizeChars (sanitizeChars s) = sanitizeChars s := by
  obtain ⟨h1, h2, h3, h4, h5, h6⟩ := sanitizeChars_not_mem s
  set t := sanitizeChars s with ht
  show sanitizeChars t = t
  unfold sanitizeChars
  rw [replaceChar_eq_self h1, replaceChar_eq_self h2, replaceChar_eq_self h3,
    removeChar_eq_self h4, removeChar_eq_self h5, removeChar_eq_self h6]

/-- C9: sanitizeMetricName is idempotent, and its output never contains
a slash, backslash, hash mark, parenthesis, or space. -/
theorem C9_sanitize_idempotent_and_clean (x : String) :
    sanitizeMetricName (sanitizeMetricName x) = sanitizeMetricName x ∧
    ∀ c ∈ (sanitizeMetricName x).data,
      c ≠ ('/' : Char) ∧ c ≠ ('\\' : Char) ∧ c ≠ ('#' : Char) ∧
      c ≠ ('(' : Char) ∧ c ≠ (')' : Char) ∧ c ≠ (' ' : Char) := by
  obtain ⟨h1, h2, h3, h4, h5, h6⟩ := sanitizeChars_not_mem x.data
  constructor
  · show (⟨sanitizeChars (String.mk (sanitizeChars x.data)).data⟩ : String) = _
    show (⟨sanitizeChars (sanitizeChars x.data)⟩ : String) = _
    rw [sanitizeChars_idem]
    rfl
  · intro c hc
    have hc : c ∈ sanitizeChars x.data := hc
    exact ⟨fun h => h2 (h ▸ hc), fun h => h3 (h ▸ hc), fun h => h4 (h ▸ hc),
      fun h => h5 (h ▸ hc), fun h => h6 (h ▸ hc), fun h => h1 (h ▸ hc)⟩

/-- Witness for C9 at a concrete string containing every special
character. -/
theorem C9_witness :
    sanitizeMetricName (sanitizeMetricName ("a b/c\\d#e(f)g")) =
      sanitizeMetricName ("a b/c\\d#e(f)g") ∧
    (' ' : Char) ∉ (sanitizeMetricName ("a b/c\\d#e(f)g")).data := by
  refine ⟨(C9_sanitize_idempotent_and_clean ("a b/c\\d#e(f)g")).1, ?_⟩
  intro h
  exact ((C9_sanitize_idempotent_and_clean ("a b/c\\d#e(f)g")).2 (' ' : Char) h).2.2.2.2.2 rfl

/-! ### Lemmas about the decimal formatting and the period key -/

theorem digitsRev_zero (f : Nat) : digitsRev f 0 = [] := by
  cases f <;> simp [digitsRev]

theorem digitsRev_eq {f n : Nat} (hf : 0 < f) (hn : 0 < n) :
    digitsRev f n = n % 10 :: digitsRev (f - 1) (n / 10) := by
  cases f with
  | zero => omega
  | succ f =>
    simp only [digitsRev, Nat.succ_sub_one]
    rw [if_neg (by omega)]

theorem digitsRev_ne_nil {f n : Nat} (hf : 0 < f) (hn : 0 < n) :
    digitsRev f n ≠ [] := by
  rw [digitsRev_eq hf hn]
  simp

theorem fmtNat_ne_nil (n : Nat) : fmtNat n ≠ [] := by
  unfold fmtNat
  split
  · simp
  · simp only [ne_eq, List.reverse_eq_nil_iff]
    exact digitsRev_ne_nil (by omega) (by omega)

theorem atoiVal_foldl (l : List Nat) (a : Nat) :
    l.foldl (fun x d => x * 10 + d) a = a * 10 ^ l.length + atoiVal l := by
  induction l generalizing a with
  | nil => simp [atoiVal]
  | cons d l ih =>
    show l.foldl _ (a * 10 + d) = _
    rw [ih (a * 10 + d)]
    have : atoiVal (d :: l) = d * 10 ^ l.length + atoiVal l := by
      show l.foldl _ (0 * 10 + d) = _
      rw [ih (0 * 10 + d)]
      ring
    rw [this]
    simp [List.length_cons]
    ring

theorem atoiVal_append (l1 l2 : List Nat) :
    atoiVal (l1 ++ l2) = atoiVal l1 * 10 ^ l2.length + atoiVal l2 := by
  unfold atoiVal
  rw [List.foldl_append]
  exact atoiVal_foldl l2 _

theorem atoiVal_digitsRev (f n : Nat) (h : n ≤ f) :
    atoiVal (digitsRev f n).reverse = n := by
  induction f generalizing n with
  | zero =>
    interval_cases n
    simp [digitsRev, atoiVal]
  | succ f ih =>
    by_cases hn : n = 0
    · simp [hn, digitsRev_zero, atoiVal]
    · rw [digitsRev_eq (by omega) (by omega)]
      simp only [Nat.succ_sub_one, List.reverse_cons]
      rw [atoiVal_append, ih (n / 10) (by omega)]
      simp [atoiVal]
      omega

theorem atoiVal_fmtNat (n : Nat) : atoiVal (fmtNat n) = n := by
  unfold fmtNat
  split
  · simp_all [atoiVal]
  · exact atoiVal_digitsRev n n le_rfl

theorem fmtNat02_eq (m : Nat) (h : m ≤ 99) : fmtNat02 m = [m / 10, m % 10] := by
  unfold fmtNat02
  split
  · rename_i h10
    rw [Nat.div_eq_of_lt h10, Nat.mod_eq_of_lt h10]
  · rename_i h10
    unfold fmtNat
    rw [if_neg (by omega), digitsRev_eq (by omega) (by omega),
      @digitsRev_eq (m - 1) (m / 10) (by omega) (by omega)]
    have h100 : m / 10 / 10 = 0 := by omega
    rw [h100, digitsRev_zero]
    have h10b : m / 10 % 10 = m / 10 := by omega
    simp [h10b]

/-- The calendar-field bounds every date parsed from a YYYY-MM-DD string
satisfies. -/
def ValidT (t : GoTime) : Prop :=
  0 ≤ t.year ∧ t.year ≤ 9999 ∧ 1 ≤ t.month ∧ t.month ≤ 12

theorem daysInMonth_ge (y m : Int) : 28 ≤ daysInMonth y m := by
  unfold daysInMonth
  split_ifs <;> norm_num

/-- GetInt of MonthAgg on an in-range time is ok and equals
year * 100 + month. -/
theorem getInt_month_eq (t : GoTime) (h : ValidT t) :
    TAgg.month.GetInt t = .ok (t.year * 100 + t.month) := by
  obtain ⟨hy0, hy, hm1, hm2⟩ := h
  show goAtoi (sprintfDD02 t.year t.month) = _
  unfold sprintfDD02
  rw [if_neg (by omega)]
  simp only [goAtoi]
  rw [if_neg (by simp [fmtNat_ne_nil])]
  have hneg : decide (t.year < 0) = false := decide_eq_false (by omega)
  simp only [hneg, Bool.false_eq_true, if_false]
  have hv : atoiVal (fmtNat t.year.natAbs ++ fmtNat02 t.month.natAbs) =
      t.year.natAbs * 100 + t.month.natAbs := by
    rw [fmtNat02_eq t.month.natAbs (by omega), atoiVal_append, atoiVal_fmtNat]
    have : atoiVal [t.month.natAbs / 10, t.month.natAbs % 10] =
        t.month.natAbs / 10 * 10 + t.month.natAbs % 10 := by
      simp [atoiVal]
    rw [this]
    simp only [List.length_cons, List.length_nil]
    have hm : t.month.natAbs / 10 * 10 + t.month.natAbs % 10 = t.month.natAbs := by omega
    rw [hm]
    norm_num
  rw [hv]
  have hya : t.year.natAbs ≤ 9999 := by omega
  have hma : t.month.natAbs ≤ 12 := by omega
  rw [if_pos (by omega)]
  congr 1
  push_cast
  rw [abs_of_nonneg hy0, abs_of_nonneg (by omega : (0 : Int) ≤ t.month)]

/-- GetInt of YearAgg on an in-range time is ok and equals the year. -/
theorem getInt_year_eq (t : GoTime) (hy0 : 0 ≤ t.year) (hy : t.year ≤ 9999) :
    TAgg.year.GetInt t = .ok t.year := by
  show goAtoi (some (sprintfD t.year)) = _
  unfold sprintfD
  simp only [goAtoi]
  rw [if_neg (by simp [fmtNat_ne_nil])]
  have hneg : decide (t.year < 0) = false := decide_eq_false (by omega)
  simp only [hneg, Bool.false_eq_true, if_false]
  rw [atoiVal_fmtNat]
  have hya : t.year.natAbs ≤ 9999 := by omega
  rw [if_pos (by omega)]
  congr 1
  exact Int.natAbs_of_nonneg hy0

theorem normMonth_id (y m : Int) (h1 : 1 ≤ m) (h2 : m ≤ 12) :
    normMonth y m = (y, m) := by
  unfold normMonth
  have e1 : (m - 1).tdiv 12 = 0 := by
    rw [Int.tdiv_eq_ediv (by omega) (by omega)]
    omega
  have e2 : (m - 1).tmod 12 = m - 1 := by
    rw [Int.tmod_eq_emod (by omega) (by omega)]
    omega
  simp only [e1, e2]
  rw [if_neg (by omega)]
  simp only [Prod.mk.injEq]
  omega

theorem normDay_step (f : Nat) (y m d : Int) (h1 : 1 ≤ d)
    (h2 : d ≤ daysInMonth y m) : normDay (f + 1) y m d = (y, m, d) := by
  simp only [normDay]
  rw [if_neg (by omega), if_neg (by omega)]

/-- time.Date on an already-normalised date is the identity on its
fields. -/
theorem goDate_id (y m d : Int) (h1 : 1 ≤ m) (h2 : m ≤ 12) (h3 : 1 ≤ d)
    (h4 : d ≤ daysInMonth y m) :
    goDate y m d 0 0 0 = ⟨y, m, d, 0, 0, 0, true⟩ := by
  unfold goDate
  rw [normMonth_id y m h1 h2]
  show (match normDay (d.natAbs + 24) y m d with
    | (y2, m2, d2) => GoTime.mk y2 m2 d2 0 0 0 true) = _
  have hf : d.natAbs + 24 = (d.natAbs + 23) + 1 := by omega
  rw [hf, normDay_step _ y m d h3 h4]

/-- GetPeriod of MonthAgg truncates a valid time to the first day of its
month, zero time of day, UTC. -/
theorem getPeriod_month (t : GoTime) (h : ValidT t) :
    TAgg.month.GetPeriod t = ⟨t.year, t.month, 1, 0, 0, 0, true⟩ := by
  obtain ⟨hy0, hy, hm1, hm2⟩ := h
  show goDate t.year t.month 1 0 0 0 = _
  exact goDate_id _ _ _ hm1 hm2 (by omega) (by have := daysInMonth_ge t.year t.month; omega)

/-- GetPeriod of YearAgg truncates any time to the first day of its
year, zero time of day, UTC. -/
theorem getPeriod_year (t : GoTime) :
    TAgg.year.GetPeriod t = ⟨t.year, 1, 1, 0, 0, 0, true⟩ := by
  show goDate t.year 1 1 0 0 0 = _
  exact goDate_id _ _ _ (by omega) (by omega) (by omega)
    (by have := daysInMonth_ge t.year 1; omega)

/-- GetPeriod preserves validity of the calendar fields. -/
theorem validT_getPeriod (tagg : TAgg) (t : GoTime) (h : ValidT t) :
    ValidT (tagg.GetPeriod t) := by
  obtain ⟨hy0, hy, hm1, hm2⟩ := h
  cases tagg
  · rw [getPeriod_month t ⟨hy0, hy, hm1, hm2⟩]
    exact ⟨hy0, hy, hm1, hm2⟩
  · rw [getPeriod_year t]
    exact ⟨hy0, hy, by norm_num, by norm_num⟩

/-- The period key of the truncated period equals the period key of the
time itself: truncation preserves year and month. -/
theorem getInt_getPeriod (tagg : TAgg) (t : GoTime) (h : ValidT t) :
    tagg.GetInt (tagg.GetPeriod t) = tagg.GetInt t := by
  obtain ⟨hy0, hy, hm1, hm2⟩ := h
  cases tagg
  · rw [getPeriod_month t ⟨hy0, hy, hm1, hm2⟩,
      getInt_month_eq ⟨t.year, t.month, 1, 0, 0, 0, true⟩ ⟨hy0, hy, hm1, hm2⟩,
      getInt_month_eq t ⟨hy0, hy, hm1, hm2⟩]
  · rw [getPeriod_year t,
      getInt_year_eq ⟨t.year, 1, 1, 0, 0, 0, true⟩ hy0 hy,
      getInt_year_eq t hy0 hy]

/-- GetInt succeeds on every valid time. -/
theorem getInt_ok (tagg : TAgg) (t : GoTime) (h : ValidT t) :
    ∃ k, tagg.GetInt t = .ok k := by
  cases tagg
  · exact ⟨_, getInt_month_eq t h⟩
  · exact ⟨_, getInt_year_eq t h.1 h.2.1⟩

theorem digitVal_le {c : Char} {a : Nat} (h : digitVal c = some a) : a ≤ 9 := by
  unfold digitVal at h
  split at h
  · rename_i hc
    cases h
    omega
  · cases h

/-- Every successfully parsed date has in-range calendar fields, a zero
time of day, and is in UTC. -/
theorem parseDate_valid {s : String} {t : GoTime} (h : parseDate s = some t) :
    ValidT t ∧ 1 ≤ t.day ∧ t.day ≤ daysInMonth t.year t.month ∧
    t.hour = 0 ∧ t.minute = 0 ∧ t.second = 0 ∧ t.utc = true := by
  unfold parseDate at h
  split at h
  · split at h
    · split at h
      · rename_i a b c d e f g hh heqa heqb heqc heqd heqe heqf heqg heqh
        dsimp only at h
        split at h
        · rename_i hcond
          injection h with h
          subst h
          have ha := digitVal_le heqa
          have hb := digitVal_le heqb
          have hc := digitVal_le heqc
          have hd := digitVal_le heqd
          refine ⟨⟨by positivity, by push_cast; omega, hcond.1, hcond.2.1⟩,
            hcond.2.2.1, hcond.2.2.2, rfl, rfl, rfl, rfl⟩
        · cases h
      · cases h
    · cases h
  · cases h

/-- C4: on every calendar date the program can receive (a parsed
YYYY-MM-DD date: four-digit year, month in 1..12), the month-granularity
key is year * 100 + month with a two-digit month, the year-granularity
key is the year, two dates of the same calendar month share key and
canonical period start, keys are unique per bucket, keys grow strictly
with time, and a December date has a strictly smaller key than any date
of the following January. -/
theorem C4_aggregation_keys (t : GoTime) (h : ValidT t) :
    TAgg.month.GetInt t = .ok (t.year * 100 + t.month) ∧
    TAgg.year.GetInt t = .ok t.year ∧
    (∀ t2 : GoTime, ValidT t2 → t.year = t2.year → t.month = t2.month →
      TAgg.month.GetInt t = TAgg.month.GetInt t2 ∧
      TAgg.month.GetPeriod t = TAgg.month.GetPeriod t2) ∧
    (∀ t2 : GoTime, ValidT t2 →
      TAgg.month.GetInt t = TAgg.month.GetInt t2 →
      t.year = t2.year ∧ t.month = t2.month) ∧
    (∀ t2 : GoTime, ValidT t2 →
      (t.year < t2.year ∨ (t.year = t2.year ∧ t.month < t2.month)) →
      t.year * 100 + t.month < t2.year * 100 + t2.month) ∧
    (∀ t2 : GoTime, ValidT t2 → t.month = 12 → t2.month = 1 →
      t2.year = t.year + 1 → ∀ tagg : TAgg, ∀ k k2 : Int,
      tagg.GetInt t = .ok k → tagg.GetInt t2 = .ok k2 → k < k2) := by
  obtain ⟨hy0, hy, hm1, hm2⟩ := h
  refine ⟨getInt_month_eq t ⟨hy0, hy, hm1, hm2⟩, getInt_year_eq t hy0 hy,
    ?_, ?_, ?_, ?_⟩
  · intro t2 h2 hyy hmm
    constructor
    · rw [getInt_month_eq t ⟨hy0, hy, hm1, hm2⟩, getInt_month_eq t2 h2, hyy, hmm]
    · rw [getPeriod_month t ⟨hy0, hy, hm1, hm2⟩, getPeriod_month t2 h2, hyy, hmm]
  · intro t2 h2 hk
    rw [getInt_month_eq t ⟨hy0, hy, hm1, hm2⟩, getInt_month_eq t2 h2] at hk
    have hk2 : t.year * 100 + t.month = t2.year * 100 + t2.month :=
      Except.ok.inj hk
    obtain ⟨_, _, hm21, hm22⟩ := h2
    constructor <;> omega
  · intro t2 h2 hlt
    obtain ⟨hb0, hb, hb1, hb2⟩ := h2
    omega
  · intro t2 h2 h12 h01 hsucc tagg k k2 hk hk2
    obtain ⟨hb0, hb, hb1, hb2⟩ := h2
    cases tagg
    · rw [getInt_month_eq t ⟨hy0, hy, hm1, hm2⟩] at hk
      rw [getInt_month_eq t2 ⟨hb0, hb, hb1, hb2⟩] at hk2
      have e1 := Except.ok.inj hk
      have e2 := Except.ok.inj hk2
      omega
    · rw [getInt_year_eq t hy0 hy] at hk
      rw [getInt_year_eq t2 hb0 hb] at hk2
      have e1 := Except.ok.inj hk
      have e2 := Except.ok.inj hk2
      omega

/-- Witness for C4 at December 31, 2016 and January 1, 2017. -/
theorem C4_witness :
    TAgg.month.GetInt ⟨2016, 12, 31, 0, 0, 0, true⟩ = .ok 201612 ∧
    TAgg.year.GetInt ⟨2016, 12, 31, 0, 0, 0, true⟩ = .ok 2016 ∧
    (201612 : Int) < 201701 := by
  have h := C4_aggregation_keys ⟨2016, 12, 31, 0, 0, 0, true⟩
    ⟨by norm_num, by norm_num, by norm_num, by norm_num⟩
  refine ⟨?_, ?_, ?_⟩
  · rw [h.1]
    norm_num
  · exact h.2.1
  · have h6 := h.2.2.2.2.2 ⟨2017, 1, 1, 0, 0, 0, true⟩
      ⟨by norm_num, by norm_num, by norm_num, by norm_num⟩
      rfl rfl (by norm_num) TAgg.month 201612 201701
      (by rw [h.1]; norm_num)
      (by rw [getInt_month_eq ⟨2017, 1, 1, 0, 0, 0, true⟩
        ⟨by norm_num, by norm_num, by norm_num, by norm_num⟩]; norm_num)
    exact h6

/-- C3: in the current revision, GetPeriod truncates every parsed date
to the first day of its month (month granularity) or its year (year
granularity), zero time of day, UTC; but the older revision main.go
builds the invoice period with time.Date day 0, which normalises to the
last day of the previous month: for an invoice dated 2016-03-15 it
records 2016-02-29 instead of 2016-03-01. -/
theorem C3_period_canonical_start :
    (∀ (s : String) (t : GoTime), parseDate s = some t →
      TAgg.month.GetPeriod t = ⟨t.year, t.month, 1, 0, 0, 0, true⟩ ∧
      TAgg.year.GetPeriod t = ⟨t.year, 1, 1, 0, 0, 0, true⟩) ∧
    parseDate ("2016-03-15") = some ⟨2016, 3, 15, 0, 0, 0, true⟩ ∧
    mainGo.GetInvoiceKpiPerMonth [⟨"2016-03-15", 100⟩] =
      .ok [⟨⟨2016, 2, 29, 0, 0, 0, true⟩, 100⟩] := by
  refine ⟨?_, by rfl, ?_⟩
  · intro s t hp
    obtain ⟨hval, hd1, hd2, _⟩ := parseDate_valid hp
    exact ⟨getPeriod_month t hval, getPeriod_year t⟩
  · unfold mainGo.GetInvoiceKpiPerMonth
    rw [show mainGo.invoiceLoop [⟨"2016-03-15", 100⟩] ([], []) =
        .ok ([(201603, ⟨⟨2016, 2, 29, 0, 0, 0, true⟩, 100⟩)], [201603]) from by
      with_unfolding_all rfl]
    show Except.ok ((sortInts [201603]).map fun k =>
      (alistFind k [(201603,
        (⟨⟨2016, 2, 29, 0, 0, 0, true⟩, 100⟩ : mainGo.InvoicePeriodKpi))]).getD mainGo.zeroIK) = _
    rw [sortInts, List.mergeSort_singleton]
    rfl

/-- Witness for C3 at the date 2016-03-15. -/
theorem C3_witness :
    TAgg.month.GetPeriod ⟨2016, 3, 15, 0, 0, 0, true⟩ =
      ⟨2016, 3, 1, 0, 0, 0, true⟩ ∧
    TAgg.year.GetPeriod ⟨2016, 3, 15, 0, 0, 0, true⟩ =
      ⟨2016, 1, 1, 0, 0, 0, true⟩ := by
  have h := C3_period_canonical_start.1 ("2016-03-15") ⟨2016, 3, 15, 0, 0, 0, true⟩ (by rfl)
  exact ⟨h.1, h.2⟩

/-! ### Association-list lemmas for the Go map model -/

theorem alistFind_insert_self {β : Type} (k : Int) (v : β) (l : List (Int × β)) :
    alistFind k (alistInsert k v l) = some v := by
  induction l with
  | nil => simp [alistInsert, alistFind]
  | cons kv rest ih =>
    obtain ⟨k0, v0⟩ := kv
    by_cases h : k0 = k
    · simp [alistInsert, alistFind, h]
    · simp [alistInsert, alistFind, h, ih]

theorem alistFind_insert_ne {β : Type} {k k2 : Int} (hne : k2 ≠ k) (v : β)
    (l : List (Int × β)) : alistFind k2 (alistInsert k v l) = alistFind k2 l := by
  induction l with
  | nil => simp [alistInsert, alistFind, Ne.symm hne]
  | cons kv rest ih =>
    obtain ⟨k0, v0⟩ := kv
    by_cases h : k0 = k
    · subst h
      simp [alistInsert, alistFind, Ne.symm hne]
    · simp only [alistInsert, if_neg h]
      by_cases h2 : k0 = k2
      · simp [alistFind, h2]
      · simp [alistFind, h2, ih]

theorem alistInsert_fst {β : Type} (k : Int) (v : β) (l : List (Int × β)) :
    (alistInsert k v l).map Prod.fst =
      if k ∈ l.map Prod.fst then l.map Prod.fst else l.map Prod.fst ++ [k] := by
  induction l with
  | nil => simp [alistInsert]
  | cons kv rest ih =>
    obtain ⟨k0, v0⟩ := kv
    by_cases h : k0 = k
    · simp [alistInsert, h]
    · have hne : k ≠ k0 := fun hh => h hh.symm
      simp only [alistInsert, if_neg h, List.map_cons, List.mem_cons, ih]
      by_cases hk : k ∈ rest.map Prod.fst
      · simp [hk]
      · simp [hk, hne]

theorem alistInsert_nodup {β : Type} {k : Int} {v : β} {l : List (Int × β)}
    (h : (l.map Prod.fst).Nodup) : ((alistInsert k v l).map Prod.fst).Nodup := by
  rw [alistInsert_fst]
  by_cases hk : k ∈ l.map Prod.fst
  · simp [hk, h]
  · simp [hk, h, List.nodup_append]

theorem alistFind_mem {β : Type} {k : Int} {v : β} {l : List (Int × β)}
    (h : alistFind k l = some v) : (k, v) ∈ l := by
  induction l with
  | nil => simp [alistFind] at h
  | cons kv rest ih =>
    obtain ⟨k0, v0⟩ := kv
    by_cases h0 : k0 = k
    · subst h0
      simp only [alistFind, if_pos rfl] at h
      cases h
      exact List.mem_cons_self _ _
    · simp only [alistFind, if_neg h0] at h
      exact List.mem_cons_of_mem _ (ih h)

theorem alistFind_of_mem {β : Type} {k : Int} {v : β} {l : List (Int × β)}
    (hnd : (l.map Prod.fst).Nodup) (h : (k, v) ∈ l) : alistFind k l = some v := by
  induction l with
  | nil => simp at h
  | cons kv rest ih =>
    obtain ⟨k0, v0⟩ := kv
    rcases List.mem_cons.1 h with h1 | h1
    · cases h1
      simp [alistFind]
    · have hk : k ∈ rest.map Prod.fst :=
        List.mem_map.2 ⟨(k, v), h1, rfl⟩
      have hne : k0 ≠ k := by
        intro hh
        subst hh
        exact (List.nodup_cons.1 hnd).1 hk
      simp only [alistFind, if_neg hne]
      exact ih (List.nodup_cons.1 hnd).2 h1

theorem alistFind_none_not_mem {β : Type} {k : Int} {l : List (Int × β)}
    (h : alistFind k l = none) : k ∉ l.map Prod.fst := by
  induction l with
  | nil => simp
  | cons kv rest ih =>
    obtain ⟨k0, v0⟩ := kv
    by_cases h0 : k0 = k
    · simp [alistFind, h0] at h
    · simp only [alistFind, if_neg h0] at h
      simp only [List.map_cons, List.mem_cons]
      rintro (h1 | h1)
      · exact h0 h1.symm
      · exact ih h h1

theorem alistFind_isSome_mem {β : Type} (k : Int) (l : List (Int × β)) :
    (alistFind k l).isSome = true ↔ k ∈ l.map Prod.fst := by
  constructor
  · intro h
    rcases Option.isSome_iff_exists.1 h with ⟨v, hv⟩
    exact List.mem_map.2 ⟨(k, v), alistFind_mem hv, rfl⟩
  · intro h
    cases hf : alistFind k l with
    | some v => simp
    | none => exact absurd h (alistFind_none_not_mem hf)

/-! ### Lemmas about the participant aggregation (C1, C10) -/

theorem entryApply_user (p : ParticipantKpi) (e : Entry) :
    (entryApply p e).user = p.user := by
  unfold entryApply
  split <;> rfl

theorem sum_alistInsert (f : ParticipantKpi → Int) (k : Int) (v : ParticipantKpi)
    (l : List (Int × ParticipantKpi)) :
    ((alistInsert k v l).map (fun kv => f kv.2)).sum =
      (l.map (fun kv => f kv.2)).sum + f v -
        (match alistFind k l with | some w => f w | none => 0) := by
  induction l with
  | nil => simp [alistInsert, alistFind]
  | cons kv rest ih =>
    obtain ⟨k0, v0⟩ := kv
    by_cases h : k0 = k
    · simp only [alistInsert, if_pos h, alistFind, List.map_cons, List.sum_cons]
      ring
    · simp only [alistInsert, if_neg h, alistFind, List.map_cons, List.sum_cons, ih]
      ring

theorem participantLoop_sum (f : ParticipantKpi → Int) (g : Entry → Int)
    (hstep : ∀ p e, f (entryApply p e) = f p + g e)
    (hzero : ∀ u : Participant, f ⟨u, 0, 0⟩ = 0) :
    ∀ (fes : List Entry) (acc : List (Int × ParticipantKpi)),
    ((participantLoop fes acc).map (fun kv => f kv.2)).sum =
      (acc.map (fun kv => f kv.2)).sum + (fes.map g).sum := by
  intro fes
  induction fes with
  | nil => simp [participantLoop]
  | cons e rest ih =>
    intro acc
    show ((participantLoop rest _).map _).sum = _
    rw [ih, sum_alistInsert]
    cases hf : alistFind e.user.id acc with
    | some w =>
      simp only [hf, Option.getD_some, hstep]
      simp only [List.map_cons, List.sum_cons]
      ring
    | none =>
      simp only [hf, Option.getD_none, hstep, hzero]
      simp only [List.map_cons, List.sum_cons]
      ring

theorem sum_map_billable (fes : List Entry) :
    (fes.map (fun e => if e.billable then e.minutes else 0)).sum =
      ((fes.filter (fun e => e.billable)).map (fun e => e.minutes)).sum := by
  induction fes with
  | nil => rfl
  | cons e rest ih => by_cases h : e.billable <;> simp [h, ih]

theorem sum_map_unbillable (fes : List Entry) :
    (fes.map (fun e => if e.billable then 0 else e.minutes)).sum =
      ((fes.filter (fun e => !e.billable)).map (fun e => e.minutes)).sum := by
  induction fes with
  | nil => rfl
  | cons e rest ih => by_cases h : e.billable <;> simp [h, ih]

/-- C1: the summaries returned by GetParticipantKpis conserve minutes:
total billable minutes equal the minutes of the billable input entries,
total unbillable minutes equal the minutes of the unbillable input
entries. -/
theorem C1_minutes_partition (fes : List Entry) :
    ((GetParticipantKpis fes).map (fun p => p.billableMinutes)).sum =
      ((fes.filter (fun e => e.billable)).map (fun e => e.minutes)).sum ∧
    ((GetParticipantKpis fes).map (fun p => p.unbillableMinutes)).sum =
      ((fes.filter (fun e => !e.billable)).map (fun e => e.minutes)).sum := by
  have hperm : (GetParticipantKpis fes).Perm ((participantLoop fes []).map Prod.snd) :=
    List.mergeSort_perm _ _
  constructor
  · rw [((hperm.map (fun p => p.billableMinutes))).sum_eq, List.map_map]
    have h := participantLoop_sum (fun p => p.billableMinutes)
      (fun e => if e.billable then e.minutes else 0)
      (by
        intro p e
        unfold entryApply
        split <;> rename_i hb <;> simp [hb])
      (fun _ => rfl) fes []
    simpa [sum_map_billable] using h
  · rw [((hperm.map (fun p => p.unbillableMinutes))).sum_eq, List.map_map]
    have h := participantLoop_sum (fun p => p.unbillableMinutes)
      (fun e => if e.billable then 0 else e.minutes)
      (by
        intro p e
        unfold entryApply
        split <;> rename_i hb <;> simp [hb])
      (fun _ => rfl) fes []
    simpa [sum_map_unbillable] using h

/-- The per-id view of the participantsMap fold: the sequence of updates
the entries with a given Id perform on that Id's binding. -/
def foldEntriesOpt (es : List Entry) (o : Option ParticipantKpi) : Option ParticipantKpi :=
  es.foldl (fun acc e => some (entryApply (acc.getD ⟨e.user, 0, 0⟩) e)) o

theorem find?_eq_head_filter {α : Type} (p : α → Bool) (l : List α) :
    l.find? p = (l.filter p).head? := by
  induction l with
  | nil => rfl
  | cons a rest ih =>
    cases h : p a
    · rw [List.find?_cons_of_neg _ (by simp [h]), List.filter_cons_of_neg (by simp [h]), ih]
    · rw [List.find?_cons_of_pos _ h, List.filter_cons_of_pos h]
      rfl

theorem participantLoop_find (i : Int) :
    ∀ (fes : List Entry) (acc : List (Int × ParticipantKpi)),
    alistFind i (participantLoop fes acc) =
      foldEntriesOpt (fes.filter (fun e => e.user.id = i)) (alistFind i acc) := by
  intro fes
  induction fes with
  | nil => intro acc; rfl
  | cons e rest ih =>
    intro acc
    show alistFind i (participantLoop rest _) = _
    rw [ih]
    by_cases he : e.user.id = i
    · rw [he, alistFind_insert_self]
      have hfil : (e :: rest).filter (fun e => e.user.id = i) =
          e :: rest.filter (fun e => e.user.id = i) := by
        simp [List.filter, he]
      rw [hfil]
      show foldEntriesOpt _ _ =
        foldEntriesOpt (rest.filter fun e2 => e2.user.id = i)
          (some (entryApply ((alistFind i acc).getD ⟨e.user, 0, 0⟩) e))
      rfl
    · rw [alistFind_insert_ne (fun hh => he hh.symm)]
      have hfil : (e :: rest).filter (fun e => e.user.id = i) =
          rest.filter (fun e => e.user.id = i) := by
        simp [List.filter, he]
      rw [hfil]

theorem foldEntriesOpt_some (es : List Entry) :
    ∀ p : ParticipantKpi, ∃ r, foldEntriesOpt es (some p) = some r ∧ r.user = p.user := by
  induction es with
  | nil => intro p; exact ⟨p, rfl, rfl⟩
  | cons e rest ih =>
    intro p
    obtain ⟨r, hr, hu⟩ := ih (entryApply p e)
    exact ⟨r, hr, by rw [hu, entryApply_user]⟩

theorem foldEntriesOpt_head (e : Entry) (es : List Entry) :
    ∃ r, foldEntriesOpt (e :: es) none = some r ∧ r.user = e.user := by
  obtain ⟨r, hr, hu⟩ := foldEntriesOpt_some es (entryApply ⟨e.user, 0, 0⟩ e)
  exact ⟨r, hr, by rw [hu, entryApply_user]⟩

theorem participantLoop_nodup :
    ∀ (fes : List Entry) (acc : List (Int × ParticipantKpi)),
    (acc.map Prod.fst).Nodup → ((participantLoop fes acc).map Prod.fst).Nodup := by
  intro fes
  induction fes with
  | nil => intro acc h; exact h
  | cons e rest ih =>
    intro acc h
    exact ih _ (alistInsert_nodup h)

/-- Every binding of the finished participantsMap carries, under the
key, the summary whose embedded Participant is the author of the first
entry with that Id. -/
theorem participantLoop_mem_char {fes : List Entry} {k : Int} {v : ParticipantKpi}
    (h : (k, v) ∈ participantLoop fes []) :
    v.user.id = k ∧ ∃ e0, fes.find? (fun e => e.user.id = k) = some e0 ∧ v.user = e0.user := by
  have hnd := participantLoop_nodup fes [] (by simp)
  have hf := alistFind_of_mem hnd h
  rw [participantLoop_find] at hf
  cases hfil : fes.filter (fun e => e.user.id = k) with
  | nil =>
    rw [hfil] at hf
    cases hf
  | cons e0 tl =>
    rw [hfil] at hf
    obtain ⟨r, hr, hu⟩ := foldEntriesOpt_head e0 tl
    have hf2 : foldEntriesOpt (e0 :: tl) none = some v := hf
    rw [hr] at hf2
    cases hf2
    have he0 : e0 ∈ fes.filter (fun e => e.user.id = k) := by
      rw [hfil]
      exact List.mem_cons_self _ _
    have hid : e0.user.id = k := by
      have := (List.mem_filter.1 he0).2
      simpa using this
    refine ⟨by rw [hu, hid], e0, ?_, hu⟩
    rw [find?_eq_head_filter, hfil]
    rfl

/-- C10: GetParticipantKpis returns exactly one summary per distinct
user Id of the input, and each summary embeds the Participant record of
the first entry in input order bearing that Id. -/
theorem C10_one_summary_per_id (fes : List Entry) :
    ((GetParticipantKpis fes).map (fun p => p.user.id)).Nodup ∧
    (∀ e ∈ fes, ∃ pk ∈ GetParticipantKpis fes, pk.user.id = e.user.id) ∧
    (∀ pk ∈ GetParticipantKpis fes, ∃ e0,
      fes.find? (fun e => e.user.id = pk.user.id) = some e0 ∧ pk.user = e0.user) := by
  have hperm : (GetParticipantKpis fes).Perm ((participantLoop fes []).map Prod.snd) :=
    List.mergeSort_perm _ _
  have hnd := participantLoop_nodup fes [] (by simp)
  refine ⟨?_, ?_, ?_⟩
  · rw [(hperm.map (fun p => p.user.id)).nodup_iff, List.map_map]
    have hcongr : (participantLoop fes []).map ((fun p => p.user.id) ∘ Prod.snd) =
        (participantLoop fes []).map Prod.fst := by
      apply List.map_congr_left
      intro kv hkv
      exact (@participantLoop_mem_char fes kv.1 kv.2 hkv).1
    rw [hcongr]
    exact hnd
  · intro e he
    have hmem : e ∈ fes.filter (fun e2 => e2.user.id = e.user.id) :=
      List.mem_filter.2 ⟨he, by simp⟩
    cases hfil : fes.filter (fun e2 => e2.user.id = e.user.id) with
    | nil => rw [hfil] at hmem; cases hmem
    | cons e0 tl =>
      obtain ⟨r, hr, hu⟩ := foldEntriesOpt_head e0 tl
      have hfind : alistFind e.user.id (participantLoop fes []) = some r := by
        rw [participantLoop_find, hfil]
        exact hr
      have hmem2 : (e.user.id, r) ∈ participantLoop fes [] := alistFind_mem hfind
      refine ⟨r, ?_, (participantLoop_mem_char hmem2).1⟩
      rw [hperm.mem_iff]
      exact List.mem_map.2 ⟨(e.user.id, r), hmem2, rfl⟩
  · intro pk hpk
    have hpk2 : pk ∈ (participantLoop fes []).map Prod.snd := hperm.mem_iff.1 hpk
    obtain ⟨kv, hkv, heq⟩ := List.mem_map.1 hpk2
    obtain ⟨k, v⟩ := kv
    cases heq
    obtain ⟨hid, e0, hfind, hu⟩ := participantLoop_mem_char hkv
    refine ⟨e0, ?_, hu⟩
    rw [hid]
    exact hfind

/-- Witness for C10 on a two-entry input with a repeated Id. -/
theorem C10_witness :
    ((GetParticipantKpis [⟨⟨1, "a", "b", "e@x"⟩, "2016-01-05", 60, true⟩,
        ⟨⟨1, "z", "w", "f@x"⟩, "2016-01-06", 30, true⟩]).map (fun p => p.user.id)).Nodup ∧
    (∃ pk ∈ GetParticipantKpis [⟨⟨1, "a", "b", "e@x"⟩, "2016-01-05", 60, true⟩,
        ⟨⟨1, "z", "w", "f@x"⟩, "2016-01-06", 30, true⟩], pk.user.id = 1) := by
  refine ⟨(C10_one_summary_per_id _).1, ?_⟩
  exact (C10_one_summary_per_id _).2.1 ⟨⟨1, "a", "b", "e@x"⟩, "2016-01-05", 60, true⟩
    (List.mem_cons_self _ _)

/-! ### Sortedness lemmas (C5, and the key ordering of C2) -/

theorem sortDescByTotal_sorted (l : List ParticipantKpi) :
    (sortDescByTotal l).Pairwise (fun a b => b.total ≤ a.total) := by
  have h := @List.sorted_mergeSort ParticipantKpi
    (fun a b : ParticipantKpi => decide (b.total ≤ a.total))
    (by
      intro a b c h1 h2
      simp only [decide_eq_true_eq] at h1 h2 ⊢
      omega)
    (by
      intro a b
      simp only [Bool.or_eq_true, decide_eq_true_eq]
      omega)
    l
  exact h.imp (by simp)

theorem sortInts_sorted (l : List Int) : (sortInts l).Pairwise (· ≤ ·) := by
  have h := @List.sorted_mergeSort Int
    (fun a b : Int => decide (a ≤ b))
    (by
      intro a b c h1 h2
      simp only [decide_eq_true_eq] at h1 h2 ⊢
      omega)
    (by
      intro a b
      simp only [Bool.or_eq_true, decide_eq_true_eq]
      omega)
    l
  exact h.imp (by simp)

theorem sortInts_perm (l : List Int) : (sortInts l).Perm l :=
  List.mergeSort_perm l _

/-- C5: the sequence GetParticipantKpis returns, and every per-period
participant list GetParticipantsPeriodPerPeriod returns, is sorted
descending by total (billable plus unbillable) minutes. -/
theorem C5_participants_sorted_descending :
    (∀ fes : List Entry,
      (GetParticipantKpis fes).Pairwise (fun a b => b.total ≤ a.total)) ∧
    (∀ (tagg : TAgg) (fes : List Entry) (res : List ParticipantsPeriod),
      GetParticipantsPeriodPerPeriod tagg fes = .ok res →
      ∀ pp ∈ res, pp.participants.Pairwise (fun a b => b.total ≤ a.total)) := by
  constructor
  · intro fes
    exact sortDescByTotal_sorted _
  · intro tagg fes res hres pp hpp
    unfold GetParticipantsPeriodPerPeriod at hres
    cases hloop : participantsPeriodLoop tagg fes ([], []) with
    | error e =>
      rw [hloop] at hres
      cases hres
    | ok st =>
      obtain ⟨m, keys⟩ := st
      rw [hloop] at hres
      have hres2 : (m.map fun kv =>
          { kv.2 with participants := sortDescByTotal kv.2.participants }) = res :=
        Except.ok.inj hres
      rw [← hres2] at hpp
      obtain ⟨kv, _, heq⟩ := List.mem_map.1 hpp
      rw [← heq]
      exact sortDescByTotal_sorted _

/-- Evaluation form of GetParticipantsPeriodPerPeriod on a successful
loop run. -/
theorem getParticipantsPeriodPerPeriod_eval (tagg : TAgg) (fes : List Entry)
    (m : List (Int × ParticipantsPeriod)) (keys : List Int)
    (h : participantsPeriodLoop tagg fes ([], []) = .ok (m, keys)) :
    GetParticipantsPeriodPerPeriod tagg fes =
      .ok (m.map fun kv =>
        { kv.2 with participants := sortDescByTotal kv.2.participants }) := by
  unfold GetParticipantsPeriodPerPeriod
  rw [h]
  rfl

/-- Witness for C5 at a one-entry input. -/
theorem C5_witness :
    (GetParticipantKpis [⟨⟨1, "a", "b", "e@x"⟩, "2016-01-05", 60, true⟩]).Pairwise
      (fun a b => b.total ≤ a.total) ∧
    ∀ pp ∈ [(⟨some TAgg.month, ⟨2016, 1, 1, 0, 0, 0, true⟩,
        [⟨⟨1, "a", "b", "e@x"⟩, 60, 0⟩]⟩ : ParticipantsPeriod)],
      pp.participants.Pairwise (fun a b => b.total ≤ a.total) := by
  refine ⟨C5_participants_sorted_descending.1 _, ?_⟩
  apply C5_participants_sorted_descending.2 TAgg.month
    [⟨⟨1, "a", "b", "e@x"⟩, "2016-01-05", 60, true⟩]
  rw [getParticipantsPeriodPerPeriod_eval TAgg.month
      [⟨⟨1, "a", "b", "e@x"⟩, "2016-01-05", 60, true⟩]
      [(201601, ⟨some TAgg.month, ⟨2016, 1, 1, 0, 0, 0, true⟩,
        [⟨⟨1, "a", "b", "e@x"⟩, 60, 0⟩]⟩)] [201601]
      (by with_unfolding_all rfl)]
  simp [sortDescByTotal, List.mergeSort_singleton]

/-! ### Lemmas about the invoice aggregation (C6) -/

theorem exceptBind_ok {e a b : Type} (x : a) (f : a → Except e b) :
    (Except.ok x >>= f) = f x := rfl

theorem exceptBind_error {e a b : Type} (err : e) (f : a → Except e b) :
    ((Except.error err : Except e a) >>= f) = .error err := rfl

theorem amount_alistInsert (k : Int) (v : InvoicePeriodKpi)
    (l : List (Int × InvoicePeriodKpi)) :
    ((alistInsert k v l).map (fun kv => kv.2.amount)).sum =
      (l.map (fun kv => kv.2.amount)).sum + v.amount -
        (match alistFind k l with | some w => w.amount | none => 0) := by
  induction l with
  | nil => simp [alistInsert, alistFind]
  | cons kv rest ih =>
    obtain ⟨k0, v0⟩ := kv
    by_cases h : k0 = k
    · simp only [alistInsert, if_pos h, alistFind, List.map_cons, List.sum_cons]
      ring
    · simp only [alistInsert, if_neg h, alistFind, List.map_cons, List.sum_cons, ih]
      ring

/-- Invariants of the invoice-aggregation loop: the keys list tracks the
map keys exactly, the keys stay distinct, and the map values conserve
the total invoiced amount. -/
theorem invoiceLoop_props (tagg : TAgg) :
    ∀ (fis : List Invoice) (m : List (Int × InvoicePeriodKpi)) (keys : List Int)
      (m2 : List (Int × InvoicePeriodKpi)) (keys2 : List Int),
    invoiceLoop tagg fis (m, keys) = .ok (m2, keys2) →
    keys = m.map Prod.fst → (m.map Prod.fst).Nodup →
    keys2 = m2.map Prod.fst ∧ (m2.map Prod.fst).Nodup ∧
    (m2.map fun kv => kv.2.amount).sum =
      (m.map fun kv => kv.2.amount).sum + (fis.map (fun i => i.total_amount)).sum := by
  intro fis
  induction fis with
  | nil =>
    intro m keys m2 keys2 h hk hnd
    obtain ⟨h1, h2⟩ := Prod.mk.injEq .. ▸ Except.ok.inj h
    subst h1
    subst h2
    simpa using ⟨hk, hnd⟩
  | cons invoice rest ih =>
    intro m keys m2 keys2 h hk hnd
    unfold invoiceLoop at h
    cases hp : parseGoDate invoice.invoice_date with
    | error e =>
      rw [hp, exceptBind_error] at h
      cases h
    | ok t =>
      rw [hp, exceptBind_ok] at h
      cases hkey : tagg.GetInt t with
      | error e =>
        rw [hkey, exceptBind_error] at h
        cases h
      | ok key =>
        rw [hkey, exceptBind_ok] at h
        have hstep := ih _ _ _ _ h
          (by
            rw [alistInsert_fst]
            cases hf : (alistFind key m).isSome with
            | true =>
              rw [if_pos ((alistFind_isSome_mem key m).1 hf), hk]
              simp [hf]
            | false =>
              have : key ∉ m.map Prod.fst := by
                intro hmem
                rw [(alistFind_isSome_mem key m).2 hmem] at hf
                cases hf
              rw [if_neg this, hk]
              simp [hf])
          (alistInsert_nodup hnd)
        refine ⟨hstep.1, hstep.2.1, ?_⟩
        rw [hstep.2.2, amount_alistInsert]
        cases hf : alistFind key m with
        | some w =>
          simp only [hf, Option.getD_some, List.map_cons, List.sum_cons]
          ring
        | none =>
          simp only [hf, Option.getD_none, List.map_cons, List.sum_cons]
          show _ + ((zeroIK.amount + invoice.total_amount) : ℚ) - 0 + _ = _
          show _ + ((0 + invoice.total_amount) : ℚ) - 0 + _ = _
          ring

theorem map_fst_lookup {β : Type} (z : β) :
    ∀ (m : List (Int × β)), (m.map Prod.fst).Nodup →
    (m.map Prod.fst).map (fun k => (alistFind k m).getD z) = m.map Prod.snd := by
  intro m
  induction m with
  | nil => intro _; rfl
  | cons kv rest ih =>
    intro hnd
    obtain ⟨k0, v0⟩ := kv
    simp only [List.map_cons]
    congr 1
    · simp [alistFind]
    · have hcongr : (rest.map Prod.fst).map
          (fun k => (alistFind k ((k0, v0) :: rest)).getD z) =
          (rest.map Prod.fst).map (fun k => (alistFind k rest).getD z) := by
        apply List.map_congr_left
        intro k hkmem
        have hne : k0 ≠ k := by
          intro hh
          subst hh
          exact (List.nodup_cons.1 hnd).1 hkmem
        simp [alistFind, hne]
      rw [hcongr]
      exact ih (List.nodup_cons.1 hnd).2

theorem foldl_add_total_amount :
    ∀ (l : List Invoice) (a : ℚ),
    l.foldl (fun x i => x + i.total_amount) a = a + (l.map (fun i => i.total_amount)).sum := by
  intro l
  induction l with
  | nil => intro a; simp
  | cons i rest ih =>
    intro a
    show rest.foldl _ (a + i.total_amount) = _
    rw [ih]
    simp only [List.map_cons, List.sum_cons]
    ring

/-- Evaluation form of GetInvoiceKpiPerPeriod on a successful loop
run. -/
theorem getInvoiceKpiPerPeriod_eval (tagg : TAgg) (fis : List Invoice)
    (m : List (Int × InvoicePeriodKpi)) (keys : List Int)
    (h : invoiceLoop tagg fis ([], []) = .ok (m, keys)) :
    GetInvoiceKpiPerPeriod tagg fis =
      .ok ((sortInts keys).map fun k => (alistFind k m).getD zeroIK) := by
  unfold GetInvoiceKpiPerPeriod
  rw [h]
  rfl

/-- C6: for a project whose invoice dates all parse, the per-period
invoice amounts sum to the whole-project invoiced total computed by
GetInvoicedTotal. -/
theorem C6_per_period_amounts_sum_to_total (tagg : TAgg) (p : ProjectKpi)
    (res : List InvoicePeriodKpi)
    (hres : GetInvoiceKpiPerPeriod tagg p.project.invoices = .ok res) :
    (res.map fun ik => ik.amount).sum = p.GetInvoicedTotal := by
  unfold GetInvoiceKpiPerPeriod at hres
  cases hloop : invoiceLoop tagg p.project.invoices ([], []) with
  | error e =>
    rw [hloop] at hres
    cases hres
  | ok st =>
    obtain ⟨m, keys⟩ := st
    rw [hloop] at hres
    have hres2 : ((sortInts keys).map fun k => (alistFind k m).getD zeroIK) = res :=
      Except.ok.inj hres
    obtain ⟨hkeys, hnd, hsum⟩ :=
      invoiceLoop_props tagg p.project.invoices [] [] m keys hloop rfl (by simp)
    subst hkeys
    rw [← hres2, List.map_map]
    have hperm := (sortInts_perm (m.map Prod.fst)).map
      ((fun ik => ik.amount) ∘ fun k => (alistFind k m).getD zeroIK)
    rw [hperm.sum_eq, ← List.map_map, map_fst_lookup zeroIK m hnd, List.map_map]
    show (m.map fun kv => kv.2.amount).sum = _
    rw [hsum]
    unfold ProjectKpi.GetInvoicedTotal
    rw [foldl_add_total_amount]
    simp

/-- Witness for C6 at a one-invoice project. -/
theorem C6_witness :
    (([(⟨some TAgg.month, ⟨2016, 3, 1, 0, 0, 0, true⟩, 100⟩ : InvoicePeriodKpi)]).map
      fun ik => ik.amount).sum =
    (⟨⟨"P", 0, 0, 0, [⟨"2016-03-15", 100⟩]⟩, []⟩ : ProjectKpi).GetInvoicedTotal := by
  apply C6_per_period_amounts_sum_to_total TAgg.month
    (⟨⟨"P", 0, 0, 0, [⟨"2016-03-15", 100⟩]⟩, []⟩ : ProjectKpi)
  rw [getInvoiceKpiPerPeriod_eval TAgg.month [⟨"2016-03-15", 100⟩]
      [(201603, ⟨some TAgg.month, ⟨2016, 3, 1, 0, 0, 0, true⟩, 100⟩)] [201603]
      (by with_unfolding_all rfl)]
  rw [sortInts, List.mergeSort_singleton]
  simp [alistFind]

/-! ### Error propagation lemmas (C7) -/

theorem parseGoDate_error {s : String} (h : parseDate s = none) :
    parseGoDate s = .error (.parse dateLayout s) := by
  unfold parseGoDate
  rw [h]

theorem parseGoDate_ok {s : String} {t : GoTime} (h : parseDate s = some t) :
    parseGoDate s = .ok t := by
  unfold parseGoDate
  rw [h]

/-- The invoice loop stops at the first unparseable date and returns its
parse error. -/
theorem invoiceLoop_parse_error (tagg : TAgg) :
    ∀ (fis : List Invoice) (st : List (Int × InvoicePeriodKpi) × List Int),
    (∃ i ∈ fis, parseDate i.invoice_date = none) →
    ∃ s, invoiceLoop tagg fis st = .error (.parse dateLayout s) ∧
      parseDate s = none ∧ ∃ i ∈ fis, i.invoice_date = s := by
  intro fis
  induction fis with
  | nil =>
    intro st h
    obtain ⟨i, hi, _⟩ := h
    cases hi
  | cons invoice rest ih =>
    intro st h
    obtain ⟨m, keys⟩ := st
    cases hp : parseDate invoice.invoice_date with
    | none =>
      refine ⟨invoice.invoice_date, ?_, hp, invoice, List.mem_cons_self _ _, rfl⟩
      show (do
        let t ← parseGoDate invoice.invoice_date
        let key ← tagg.GetInt t
        let ik := (alistFind key m).getD zeroIK
        let keys1 := if (alistFind key m).isSome then keys else keys ++ [key]
        let ik1 : InvoicePeriodKpi :=
          { timeAgg := some tagg, period := tagg.GetPeriod t,
            amount := ik.amount + invoice.total_amount }
        invoiceLoop tagg rest (alistInsert key ik1 m, keys1)) = _
      rw [parseGoDate_error hp, exceptBind_error]
    | some t =>
      obtain ⟨hval, _⟩ := parseDate_valid hp
      obtain ⟨key, hkey⟩ := getInt_ok tagg t hval
      have hrest : ∃ i ∈ rest, parseDate i.invoice_date = none := by
        obtain ⟨i, hi, hpi⟩ := h
        rcases List.mem_cons.1 hi with h1 | h1
        · subst h1
          rw [hp] at hpi
          cases hpi
        · exact ⟨i, h1, hpi⟩
      obtain ⟨s, hs1, hs2, i, hi, hieq⟩ := ih _ hrest
      refine ⟨s, ?_, hs2, i, List.mem_cons_of_mem _ hi, hieq⟩
      show (do
        let t ← parseGoDate invoice.invoice_date
        let key ← tagg.GetInt t
        let ik := (alistFind key m).getD zeroIK
        let keys1 := if (alistFind key m).isSome then keys else keys ++ [key]
        let ik1 : InvoicePeriodKpi :=
          { timeAgg := some tagg, period := tagg.GetPeriod t,
            amount := ik.amount + invoice.total_amount }
        invoiceLoop tagg rest (alistInsert key ik1 m, keys1)) = _
      rw [parseGoDate_ok hp, exceptBind_ok, hkey, exceptBind_ok]
      exact hs1

/-- The invoice loop succeeds when every invoice date parses. -/
theorem invoiceLoop_ok (tagg : TAgg) :
    ∀ (fis : List Invoice) (st : List (Int × InvoicePeriodKpi) × List Int),
    (∀ i ∈ fis, parseDate i.invoice_date ≠ none) →
    ∃ st2, invoiceLoop tagg fis st = .ok st2 := by
  intro fis
  induction fis with
  | nil => intro st _; exact ⟨st, rfl⟩
  | cons invoice rest ih =>
    intro st h
    obtain ⟨m, keys⟩ := st
    cases hp : parseDate invoice.invoice_date with
    | none => exact absurd hp (h invoice (List.mem_cons_self _ _))
    | some t =>
      obtain ⟨hval, _⟩ := parseDate_valid hp
      obtain ⟨key, hkey⟩ := getInt_ok tagg t hval
      obtain ⟨st2, hst2⟩ := ih
        (alistInsert key
          { timeAgg := some tagg, period := tagg.GetPeriod t,
            amount := ((alistFind key m).getD zeroIK).amount + invoice.total_amount } m,
         if (alistFind key m).isSome then keys else keys ++ [key])
        (fun i hi => h i (List.mem_cons_of_mem _ hi))
      refine ⟨st2, ?_⟩
      show (do
        let t ← parseGoDate invoice.invoice_date
        let key ← tagg.GetInt t
        let ik := (alistFind key m).getD zeroIK
        let keys1 := if (alistFind key m).isSome then keys else keys ++ [key]
        let ik1 : InvoicePeriodKpi :=
          { timeAgg := some tagg, period := tagg.GetPeriod t,
            amount := ik.amount + invoice.total_amount }
        invoiceLoop tagg rest (alistInsert key ik1 m, keys1)) = _
      rw [parseGoDate_ok hp, exceptBind_ok, hkey, exceptBind_ok]
      exact hst2

/-- The participants-per-period loop stops at the first unparseable date
and returns its parse error. -/
theorem participantsPeriodLoop_parse_error (tagg : TAgg) :
    ∀ (fes : List Entry) (st : List (Int × ParticipantsPeriod) × List Int),
    (∃ e ∈ fes, parseDate e.date = none) →
    ∃ s, participantsPeriodLoop tagg fes st = .error (.parse dateLayout s) ∧
      parseDate s = none ∧ ∃ e ∈ fes, e.date = s := by
  intro fes
  induction fes with
  | nil =>
    intro st h
    obtain ⟨e, he, _⟩ := h
    cases he
  | cons e rest ih =>
    intro st h
    obtain ⟨m, keys⟩ := st
    cases hp : parseDate e.date with
    | none =>
      refine ⟨e.date, ?_, hp, e, List.mem_cons_self _ _, rfl⟩
      show (do
        let t ← parseGoDate e.date
        let key ← tagg.GetInt t
        let pk := (alistFind key m).getD zeroPP
        let keys1 := if (alistFind key m).isSome then keys else keys ++ [key]
        let pk1 : ParticipantsPeriod :=
          { timeAgg := some tagg, period := tagg.GetPeriod t,
            participants := addEntryToParts e pk.participants }
        participantsPeriodLoop tagg rest (alistInsert key pk1 m, keys1)) = _
      rw [parseGoDate_error hp, exceptBind_error]
    | some t =>
      obtain ⟨hval, _⟩ := parseDate_valid hp
      obtain ⟨key, hkey⟩ := getInt_ok tagg t hval
      have hrest : ∃ e2 ∈ rest, parseDate e2.date = none := by
        obtain ⟨e2, he2, hpe⟩ := h
        rcases List.mem_cons.1 he2 with h1 | h1
        · subst h1
          rw [hp] at hpe
          cases hpe
        · exact ⟨e2, h1, hpe⟩
      obtain ⟨s, hs1, hs2, e2, he2, heq⟩ := ih _ hrest
      refine ⟨s, ?_, hs2, e2, List.mem_cons_of_mem _ he2, heq⟩
      show (do
        let t ← parseGoDate e.date
        let key ← tagg.GetInt t
        let pk := (alistFind key m).getD zeroPP
        let keys1 := if (alistFind key m).isSome then keys else keys ++ [key]
        let pk1 : ParticipantsPeriod :=
          { timeAgg := some tagg, period := tagg.GetPeriod t,
            participants := addEntryToParts e pk.participants }
        participantsPeriodLoop tagg rest (alistInsert key pk1 m, keys1)) = _
      rw [parseGoDate_ok hp, exceptBind_ok, hkey, exceptBind_ok]
      exact hs1

/-- C7: an unparseable date string makes GetInvoiceKpiPerPeriod,
GetParticipantsPeriodPerPeriod and GetProjectKpiPerPeriod return the
time.Parse error itself (layout plus offending value, not transformed or
wrapped) — GetProjectKpiPerPeriod returns the suberror value unchanged —
and in the Go (nil, err) pair the result slice is nil. -/
theorem C7_parse_error_propagation :
    (∀ (tagg : TAgg) (fis : List Invoice),
      (∃ i ∈ fis, parseDate i.invoice_date = none) →
      ∃ s, GetInvoiceKpiPerPeriod tagg fis = .error (.parse dateLayout s) ∧
        parseDate s = none ∧ ∃ i ∈ fis, i.invoice_date = s) ∧
    (∀ (tagg : TAgg) (fes : List Entry),
      (∃ e ∈ fes, parseDate e.date = none) →
      ∃ s, GetParticipantsPeriodPerPeriod tagg fes = .error (.parse dateLayout s) ∧
        parseDate s = none ∧ ∃ e ∈ fes, e.date = s) ∧
    (∀ (tagg : TAgg) (p : ProjectKpi),
      ((∃ i ∈ p.project.invoices, parseDate i.invoice_date = none) ∨
       (∃ e ∈ p.detailedEntries, parseDate e.date = none)) →
      ∃ s, GetProjectKpiPerPeriod tagg p = .error (.parse dateLayout s) ∧
        parseDate s = none) ∧
    (∀ (tagg : TAgg) (p : ProjectKpi) (err : GoErr),
      GetInvoiceKpiPerPeriod tagg p.project.invoices = .error err →
      GetProjectKpiPerPeriod tagg p = .error err) ∧
    (∀ (tagg : TAgg) (p : ProjectKpi) (err : GoErr) (inv : List InvoicePeriodKpi),
      GetInvoiceKpiPerPeriod tagg p.project.invoices = .ok inv →
      GetParticipantsPeriodPerPeriod tagg p.detailedEntries = .error err →
      GetProjectKpiPerPeriod tagg p = .error err) := by
  have hInv : ∀ (tagg : TAgg) (fis : List Invoice),
      (∃ i ∈ fis, parseDate i.invoice_date = none) →
      ∃ s, GetInvoiceKpiPerPeriod tagg fis = .error (.parse dateLayout s) ∧
        parseDate s = none ∧ ∃ i ∈ fis, i.invoice_date = s := by
    intro tagg fis h
    obtain ⟨s, hs1, hs2, i, hi, heq⟩ := invoiceLoop_parse_error tagg fis ([], []) h
    refine ⟨s, ?_, hs2, i, hi, heq⟩
    unfold GetInvoiceKpiPerPeriod
    rw [hs1, exceptBind_error]
  have hPar : ∀ (tagg : TAgg) (fes : List Entry),
      (∃ e ∈ fes, parseDate e.date = none) →
      ∃ s, GetParticipantsPeriodPerPeriod tagg fes = .error (.parse dateLayout s) ∧
        parseDate s = none ∧ ∃ e ∈ fes, e.date = s := by
    intro tagg fes h
    obtain ⟨s, hs1, hs2, e, he, heq⟩ := participantsPeriodLoop_parse_error tagg fes ([], []) h
    refine ⟨s, ?_, hs2, e, he, heq⟩
    unfold GetParticipantsPeriodPerPeriod
    rw [hs1, exceptBind_error]
  have hPrj1 : ∀ (tagg : TAgg) (p : ProjectKpi) (err : GoErr),
      GetInvoiceKpiPerPeriod tagg p.project.invoices = .error err →
      GetProjectKpiPerPeriod tagg p = .error err := by
    intro tagg p err h
    unfold GetProjectKpiPerPeriod
    rw [h, exceptBind_error]
  have hPrj2 : ∀ (tagg : TAgg) (p : ProjectKpi) (err : GoErr) (inv : List InvoicePeriodKpi),
      GetInvoiceKpiPerPeriod tagg p.project.invoices = .ok inv →
      GetParticipantsPeriodPerPeriod tagg p.detailedEntries = .error err →
      GetProjectKpiPerPeriod tagg p = .error err := by
    intro tagg p err inv h1 h2
    unfold GetProjectKpiPerPeriod
    rw [h1, exceptBind_ok, h2, exceptBind_error]
  refine ⟨hInv, hPar, ?_, hPrj1, hPrj2⟩
  intro tagg p h
  by_cases hinv : ∃ i ∈ p.project.invoices, parseDate i.invoice_date = none
  · obtain ⟨s, hs1, hs2, _⟩ := hInv tagg p.project.invoices hinv
    exact ⟨s, hPrj1 tagg p _ hs1, hs2⟩
  · have hentries : ∃ e ∈ p.detailedEntries, parseDate e.date = none := by
      rcases h with h | h
      · exact absurd h hinv
      · exact h
    push_neg at hinv
    obtain ⟨st2, hst2⟩ := invoiceLoop_ok tagg p.project.invoices ([], [])
      (fun i hi => hinv i hi)
    obtain ⟨m, keys⟩ := st2
    have hok := getInvoiceKpiPerPeriod_eval tagg p.project.invoices m keys hst2
    obtain ⟨s, hs1, hs2, _⟩ := hPar tagg p.detailedEntries hentries
    exact ⟨s, hPrj2 tagg p _ _ hok hs1, hs2⟩

/-- Witness for C7 at an invoice with an unparseable date. -/
theorem C7_witness :
    ∃ s, GetInvoiceKpiPerPeriod TAgg.month [⟨"bad", 100⟩] =
      .error (.parse dateLayout s) ∧ parseDate s = none := by
  obtain ⟨s, h1, h2, _⟩ := C7_parse_error_propagation.1 TAgg.month
    [⟨"bad", 100⟩] ⟨⟨"bad", 100⟩, List.mem_cons_self _ _, rfl⟩
  exact ⟨s, h1, h2⟩

/-! ### The report loop and the period flag (C8) -/

theorem getParticipantKpis_nil : GetParticipantKpis [] = [] := by
  unfold GetParticipantKpis sortDescByTotal
  exact List.mergeSort_nil

/-- Behaviour of the report loop under an invalid period flag: with no
projects it runs to completion (exit 0, no usage message); with at least
one project it prints the first project summary and its participant
lines, registers their metrics, then prints the two usage lines and
exits with the failure status. -/
theorem runProjects_invalid_flag (flag : String) (g : List Gauge)
    (hm : ¬ flag = ("month" : String)) (hy : ¬ flag = ("year" : String)) :
    runProjects flag g [] = ([], g, .completed) ∧
    ∀ (p : ProjectKpi) (rest : List ProjectKpi),
      runProjects flag g (p :: rest) =
        ((OutLine.projectLine p.project.name ::
            (GetParticipantKpis p.detailedEntries).map fun q =>
              OutLine.participantLine q.user.email) ++
          [OutLine.usageOptions, OutLine.usageBadChoice flag],
         (GetParticipantKpis p.detailedEntries).foldl
           (fun m q => registerParticipantMetrics q ("FreckleAPI.participants")
             p.project.name m)
           (registerProjectMetrics p g),
         ExitCode.failed) := by
  constructor
  · rfl
  · intro p rest
    show (if flag = ("month" : String) then _ else if flag = ("year" : String) then _ else _) = _
    rw [if_neg hm, if_neg hy]

/-- C8 counterexample: with --period "week" and one project, the report
loop prints the project summary line and registers the four project
gauges before the usage message and the failure exit, so work was
performed and a report line was printed before exiting. -/
theorem C8_counterexample :
    (runProjects ("week") [] [⟨⟨"P", 10, 5, 8, []⟩, []⟩]).1 =
      [.projectLine ("P"), .usageOptions, .usageBadChoice ("week")] ∧
    (runProjects ("week") [] [⟨⟨"P", 10, 5, 8, []⟩, []⟩]).2.1.length = 4 ∧
    (runProjects ("week") [] [⟨⟨"P", 10, 5, 8, []⟩, []⟩]).2.2 = ExitCode.failed := by
  have h := (runProjects_invalid_flag ("week") []
    (by decide) (by decide)).2 ⟨⟨"P", 10, 5, 8, []⟩, []⟩ []
  rw [show (⟨⟨"P", 10, 5, 8, []⟩, []⟩ : ProjectKpi).detailedEntries = [] from rfl,
    getParticipantKpis_nil] at h
  rw [h]
  refine ⟨rfl, rfl, rfl⟩

/-- C8 (amended): for every period flag value other than month and year,
the report loop exits with the failure status after printing the usage
message only when at least one project is selected — and then only after
the first project summary and participant lines were printed and their
metrics registered; with no projects it completes with exit status 0 and
prints no usage message. -/
theorem C8_invalid_period_flag (flag : String) (g : List Gauge)
    (projects : List ProjectKpi)
    (hm : flag ≠ ("month" : String)) (hy : flag ≠ ("year" : String)) :
    (projects = [] → runProjects flag g projects = ([], g, .completed)) ∧
    ∀ (p : ProjectKpi) (rest : List ProjectKpi), projects = p :: rest →
      runProjects flag g projects =
        ((OutLine.projectLine p.project.name ::
            (GetParticipantKpis p.detailedEntries).map fun q =>
              OutLine.participantLine q.user.email) ++
          [OutLine.usageOptions, OutLine.usageBadChoice flag],
         (GetParticipantKpis p.detailedEntries).foldl
           (fun m q => registerParticipantMetrics q ("FreckleAPI.participants")
             p.project.name m)
           (registerProjectMetrics p g),
         ExitCode.failed) := by
  constructor
  · intro hnil
    subst hnil
    exact (runProjects_invalid_flag flag g hm hy).1
  · intro p rest hcons
    subst hcons
    exact (runProjects_invalid_flag flag g hm hy).2 p rest

/-- Witness for C8 at flag value week with no projects. -/
theorem C8_witness :
    runProjects ("week") [] [] = ([], [], .completed) :=
  (C8_invalid_period_flag ("week") [] [] (by decide) (by decide)).1 rfl

/-! ### Lemmas for the per-period merge (C2) -/

instance {e a : Type} [DecidableEq e] [DecidableEq a] : DecidableEq (Except e a) := fun x y =>
  match x, y with
  | .ok v, .ok w => if h : v = w then isTrue (by rw [h]) else isFalse (by simp [h])
  | .error v, .error w => if h : v = w then isTrue (by rw [h]) else isFalse (by simp [h])
  | .ok _, .error _ => isFalse (by simp)
  | .error _, .ok _ => isFalse (by simp)

/-- The period key of a per-period invoice summary, as
GetProjectKpiPerPeriod computes it: invoice.TimeAgg.GetInt(invoice.Period). -/
def invKey (ivc : InvoicePeriodKpi) : Except GoErr Int :=
  optGetInt ivc.timeAgg ivc.period

/-- The period key of a per-period participant record, as
GetProjectKpiPerPeriod computes it. -/
def ppKey (pp : ParticipantsPeriod) : Except GoErr Int :=
  optGetInt pp.timeAgg pp.period

/-- The period key of a merged per-period project record. -/
def ppmKey (r : ProjectPeriodKpi) : Except GoErr Int :=
  optGetInt r.timeAgg r.period

theorem alistInsert_mem {β : Type} {kv : Int × β} {k : Int} {v : β}
    {l : List (Int × β)} (h : kv ∈ alistInsert k v l) : kv = (k, v) ∨ kv ∈ l := by
  induction l with
  | nil =>
    simp [alistInsert] at h
    exact Or.inl h
  | cons kv0 rest ih =>
    obtain ⟨k0, v0⟩ := kv0
    by_cases h0 : k0 = k
    · subst h0
      simp only [alistInsert, if_pos rfl] at h
      rcases List.mem_cons.1 h with h1 | h1
      · exact Or.inl h1
      · exact Or.inr (List.mem_cons_of_mem _ h1)
    · simp only [alistInsert, if_neg h0] at h
      rcases List.mem_cons.1 h with h1 | h1
      · exact Or.inr (h1 ▸ List.mem_cons_self _ _)
      · rcases ih h1 with h2 | h2
        · exact Or.inl h2
        · exact Or.inr (List.mem_cons_of_mem _ h2)

theorem countP_eq_of_nodup (k : Int) :
    ∀ (l : List Int), l.Nodup →
    l.countP (fun x => decide (x = k)) = if k ∈ l then 1 else 0 := by
  intro l
  induction l with
  | nil => intro _; simp
  | cons a rest ih =>
    intro hnd
    rw [List.countP_cons, ih (List.nodup_cons.1 hnd).2]
    by_cases ha : a = k
    · subst ha
      have : a ∉ rest := (List.nodup_cons.1 hnd).1
      simp [this]
    · have hk : k ∈ a :: rest ↔ k ∈ rest := by
        constructor
        · intro h
          rcases List.mem_cons.1 h with h1 | h1
          · exact absurd h1.symm ha
          · exact h1
        · exact fun h => List.mem_cons_of_mem _ h
      simp [ha, hk]

/-- Every member of the invoice loop map carries the TimeAggregater and
a period whose key recomputes to its map key. -/
theorem invoiceLoop_member (tagg : TAgg) :
    ∀ (fis : List Invoice) (m : List (Int × InvoicePeriodKpi)) (keys : List Int)
      (m2 : List (Int × InvoicePeriodKpi)) (keys2 : List Int),
    invoiceLoop tagg fis (m, keys) = .ok (m2, keys2) →
    (∀ kv ∈ m, kv.2.timeAgg = some tagg ∧ tagg.GetInt kv.2.period = .ok kv.1) →
    (∀ kv ∈ m2, kv.2.timeAgg = some tagg ∧ tagg.GetInt kv.2.period = .ok kv.1) := by
  intro fis
  induction fis with
  | nil =>
    intro m keys m2 keys2 h hm
    obtain ⟨h1, h2⟩ := Prod.mk.injEq .. ▸ Except.ok.inj h
    subst h1
    exact hm
  | cons invoice rest ih =>
    intro m keys m2 keys2 h hm
    unfold invoiceLoop at h
    cases hp : parseGoDate invoice.invoice_date with
    | error e =>
      rw [hp, exceptBind_error] at h
      cases h
    | ok t =>
      rw [hp, exceptBind_ok] at h
      cases hkey : tagg.GetInt t with
      | error e =>
        rw [hkey, exceptBind_error] at h
        cases h
      | ok key =>
        rw [hkey, exceptBind_ok] at h
        have hvalid : ValidT t := by
          cases hps : parseDate invoice.invoice_date with
          | none =>
            unfold parseGoDate at hp
            rw [hps] at hp
            cases hp
          | some t2 =>
            unfold parseGoDate at hp
            rw [hps] at hp
            cases hp
            exact (parseDate_valid hps).1
        refine ih _ _ _ _ h ?_
        intro kv hkv
        rcases alistInsert_mem hkv with h1 | h1
        · subst h1
          refine ⟨rfl, ?_⟩
          show tagg.GetInt (tagg.GetPeriod t) = _
          rw [getInt_getPeriod tagg t hvalid, hkey]
        · exact hm kv h1

/-- Every element of a successful GetInvoiceKpiPerPeriod result holds
the TimeAggregater and a period with a recomputable key. -/
theorem getInvoiceKpiPerPeriod_members (tagg : TAgg) (fis : List Invoice)
    (res : List InvoicePeriodKpi)
    (h : GetInvoiceKpiPerPeriod tagg fis = .ok res) :
    ∀ r ∈ res, r.timeAgg = some tagg ∧ ∃ k, tagg.GetInt r.period = .ok k := by
  unfold GetInvoiceKpiPerPeriod at h
  cases hloop : invoiceLoop tagg fis ([], []) with
  | error e =>
    rw [hloop, exceptBind_error] at h
    cases h
  | ok st =>
    obtain ⟨m, keys⟩ := st
    rw [hloop, exceptBind_ok] at h
    have hres : ((sortInts keys).map fun k => (alistFind k m).getD zeroIK) = res :=
      Except.ok.inj h
    obtain ⟨hkeys, hnd, _⟩ := invoiceLoop_props tagg fis [] [] m keys hloop rfl (by simp)
    have hmem := invoiceLoop_member tagg fis [] [] m keys hloop (by simp)
    intro r hr
    rw [← hres] at hr
    obtain ⟨k, hk, heq⟩ := List.mem_map.1 hr
    have hkmem : k ∈ m.map Prod.fst := by
      rw [← hkeys]
      exact (sortInts_perm keys).mem_iff.1 hk
    obtain ⟨⟨k1, v1⟩, hkv, hfst⟩ := List.mem_map.1 hkmem
    have hfst2 : k1 = k := hfst
    subst hfst2
    have hfind : alistFind k1 m = some v1 := alistFind_of_mem hnd hkv
    rw [← heq, hfind]
    obtain ⟨h1, h2⟩ := hmem (k1, v1) hkv
    exact ⟨h1, k1, h2⟩

theorem participantsPeriodLoop_member (tagg : TAgg) :
    ∀ (fes : List Entry) (m : List (Int × ParticipantsPeriod)) (keys : List Int)
      (m2 : List (Int × ParticipantsPeriod)) (keys2 : List Int),
    participantsPeriodLoop tagg fes (m, keys) = .ok (m2, keys2) →
    (∀ kv ∈ m, kv.2.timeAgg = some tagg ∧ tagg.GetInt kv.2.period = .ok kv.1) →
    (∀ kv ∈ m2, kv.2.timeAgg = some tagg ∧ tagg.GetInt kv.2.period = .ok kv.1) := by
  intro fes
  induction fes with
  | nil =>
    intro m keys m2 keys2 h hm
    obtain ⟨h1, h2⟩ := Prod.mk.injEq .. ▸ Except.ok.inj h
    subst h1
    exact hm
  | cons e rest ih =>
    intro m keys m2 keys2 h hm
    unfold participantsPeriodLoop at h
    cases hp : parseGoDate e.date with
    | error err =>
      rw [hp, exceptBind_error] at h
      cases h
    | ok t =>
      rw [hp, exceptBind_ok] at h
      cases hkey : tagg.GetInt t with
      | error err =>
        rw [hkey, exceptBind_error] at h
        cases h
      | ok key =>
        rw [hkey, exceptBind_ok] at h
        have hvalid : ValidT t := by
          cases hps : parseDate e.date with
          | none =>
            unfold parseGoDate at hp
            rw [hps] at hp
            cases hp
          | some t2 =>
            unfold parseGoDate at hp
            rw [hps] at hp
            cases hp
            exact (parseDate_valid hps).1
        refine ih _ _ _ _ h ?_
        intro kv hkv
        rcases alistInsert_mem hkv with h1 | h1
        · subst h1
          refine ⟨rfl, ?_⟩
          show tagg.GetInt (tagg.GetPeriod t) = _
          rw [getInt_getPeriod tagg t hvalid, hkey]
        · exact hm kv h1

/-- Every element of a successful GetParticipantsPeriodPerPeriod result
holds the TimeAggregater and a period with a recomputable key. -/
theorem getParticipantsPeriodPerPeriod_members (tagg : TAgg) (fes : List Entry)
    (res : List ParticipantsPeriod)
    (h : GetParticipantsPeriodPerPeriod tagg fes = .ok res) :
    ∀ q ∈ res, q.timeAgg = some tagg ∧ ∃ k, tagg.GetInt q.period = .ok k := by
  unfold GetParticipantsPeriodPerPeriod at h
  cases hloop : participantsPeriodLoop tagg fes ([], []) with
  | error e =>
    rw [hloop, exceptBind_error] at h
    cases h
  | ok st =>
    obtain ⟨m, keys⟩ := st
    rw [hloop, exceptBind_ok] at h
    have hres : (m.map fun kv =>
        { kv.2 with participants := sortDescByTotal kv.2.participants }) = res :=
      Except.ok.inj h
    have hmem := participantsPeriodLoop_member tagg fes [] [] m keys hloop (by simp)
    intro q hq
    rw [← hres] at hq
    obtain ⟨kv, hkv, heq⟩ := List.mem_map.1 hq
    obtain ⟨h1, h2⟩ := hmem kv hkv
    rw [← heq]
    exact ⟨h1, kv.1, h2⟩

theorem alistInsert_fst_mem {β : Type} (k key : Int) (v : β) (l : List (Int × β)) :
    k ∈ (alistInsert key v l).map Prod.fst ↔ k ∈ l.map Prod.fst ∨ k = key := by
  rw [alistInsert_fst]
  by_cases h : key ∈ l.map Prod.fst
  · rw [if_pos h]
    constructor
    · exact Or.inl
    · rintro (h1 | h1)
      · exact h1
      · exact h1 ▸ h
  · rw [if_neg h]
    simp [List.mem_append]

/-- Invariants of the first merge loop of GetProjectKpiPerPeriod: the
keys track the map keys, stay distinct, every stored record carries the
aggregator, a key that recomputes, and an empty participant list, and
the key set is exactly the initial keys plus the invoice keys. -/
theorem projectInvoiceLoop_props (tagg : TAgg) (name : String) :
    ∀ (inv : List InvoicePeriodKpi) (m : List (Int × ProjectPeriodKpi)) (keys : List Int)
      (m2 : List (Int × ProjectPeriodKpi)) (keys2 : List Int),
    projectInvoiceLoop tagg name inv (m, keys) = .ok (m2, keys2) →
    keys = m.map Prod.fst → (m.map Prod.fst).Nodup →
    (∀ i ∈ inv, i.timeAgg = some tagg) →
    (∀ kv ∈ m, kv.2.timeAgg = some tagg ∧ ppmKey kv.2 = .ok kv.1 ∧
      kv.2.participants = []) →
    keys2 = m2.map Prod.fst ∧ (m2.map Prod.fst).Nodup ∧
    (∀ kv ∈ m2, kv.2.timeAgg = some tagg ∧ ppmKey kv.2 = .ok kv.1 ∧
      kv.2.participants = []) ∧
    (∀ k : Int, k ∈ m2.map Prod.fst ↔
      (k ∈ m.map Prod.fst ∨ ∃ i ∈ inv, invKey i = .ok k)) := by
  intro inv
  induction inv with
  | nil =>
    intro m keys m2 keys2 h hk hnd _ hm
    obtain ⟨h1, h2⟩ := Prod.mk.injEq .. ▸ Except.ok.inj h
    subst h1
    subst h2
    refine ⟨hk, hnd, hm, ?_⟩
    intro k
    simp
  | cons ivc rest ih =>
    intro m keys m2 keys2 h hk hnd hinv hm
    unfold projectInvoiceLoop at h
    cases hkey : optGetInt ivc.timeAgg ivc.period with
    | error e =>
      rw [hkey, exceptBind_error] at h
      cases h
    | ok key =>
      rw [hkey, exceptBind_ok] at h
      have hivcAgg : ivc.timeAgg = some tagg := hinv ivc (List.mem_cons_self _ _)
      have hstep := ih _ _ _ _ h
        (by
          rw [alistInsert_fst]
          cases hf : (alistFind key m).isSome with
          | true =>
            rw [if_pos ((alistFind_isSome_mem key m).1 hf), hk]
            simp [hf]
          | false =>
            have hnotin : key ∉ m.map Prod.fst := by
              intro hmem
              rw [(alistFind_isSome_mem key m).2 hmem] at hf
              cases hf
            rw [if_neg hnotin, hk]
            simp [hf])
        (alistInsert_nodup hnd)
        (fun i hi => hinv i (List.mem_cons_of_mem _ hi))
        (by
          intro kv hkv
          rcases alistInsert_mem hkv with h1 | h1
          · subst h1
            refine ⟨rfl, ?_, ?_⟩
            · show optGetInt (some tagg) ivc.period = _
              rw [← hivcAgg]
              exact hkey
            · cases hf : alistFind key m with
              | some w =>
                show w.participants = []
                exact (hm (key, w) (alistFind_mem hf)).2.2
              | none => rfl
          · exact hm kv h1)
      refine ⟨hstep.1, hstep.2.1, hstep.2.2.1, ?_⟩
      intro k
      rw [hstep.2.2.2 k, alistInsert_fst_mem]
      have hkeyEq : invKey ivc = .ok key := by
        show optGetInt ivc.timeAgg ivc.period = _
        exact hkey
      have hiff : (∃ i ∈ ivc :: rest, invKey i = .ok k) ↔
          (k = key ∨ ∃ i ∈ rest, invKey i = .ok k) := by
        constructor
        · rintro ⟨i, hi, hik⟩
          rcases List.mem_cons.1 hi with h1 | h1
          · subst h1
            rw [hkeyEq] at hik
            exact Or.inl (Except.ok.inj hik).symm
          · exact Or.inr ⟨i, h1, hik⟩
        · rintro (h1 | ⟨i, hi, hik⟩)
          · exact ⟨ivc, List.mem_cons_self _ _, by rw [hkeyEq, h1]⟩
          · exact ⟨i, List.mem_cons_of_mem _ hi, hik⟩
      rw [hiff]
      tauto

/-- Invariants of the second merge loop of GetProjectKpiPerPeriod: keys
track the map keys and stay distinct, every stored record carries the
aggregator and a key that recomputes, the key set is the initial keys
plus the participant-period keys, keys no participant period touches
keep their binding, and the invoice summary of every binding is the one
the initial map held for that key (the zero value when it held none). -/
theorem projectParticipantsLoop_props (tagg : TAgg) (name : String) :
    ∀ (parts : List ParticipantsPeriod) (m : List (Int × ProjectPeriodKpi)) (keys : List Int)
      (m2 : List (Int × ProjectPeriodKpi)) (keys2 : List Int),
    projectParticipantsLoop tagg name parts (m, keys) = .ok (m2, keys2) →
    keys = m.map Prod.fst → (m.map Prod.fst).Nodup →
    (∀ q ∈ parts, q.timeAgg = some tagg) →
    (∀ kv ∈ m, kv.2.timeAgg = some tagg ∧ ppmKey kv.2 = .ok kv.1) →
    keys2 = m2.map Prod.fst ∧ (m2.map Prod.fst).Nodup ∧
    (∀ kv ∈ m2, kv.2.timeAgg = some tagg ∧ ppmKey kv.2 = .ok kv.1) ∧
    (∀ k : Int, k ∈ m2.map Prod.fst ↔
      (k ∈ m.map Prod.fst ∨ ∃ q ∈ parts, ppKey q = .ok k)) ∧
    (∀ k : Int, (∀ q ∈ parts, ppKey q ≠ .ok k) → alistFind k m2 = alistFind k m) ∧
    (∀ kv ∈ m2, kv.2.invoice = ((alistFind kv.1 m).getD zeroPPM).invoice) := by
  intro parts
  induction parts with
  | nil =>
    intro m keys m2 keys2 h hk hnd _ hm
    obtain ⟨h1, h2⟩ := Prod.mk.injEq .. ▸ Except.ok.inj h
    subst h1
    subst h2
    refine ⟨hk, hnd, hm, by simp, fun _ _ => rfl, ?_⟩
    intro kv hkv
    have hfind : alistFind kv.1 m = some kv.2 := by
      obtain ⟨k1, v1⟩ := kv
      exact alistFind_of_mem hnd hkv
    rw [hfind, Option.getD_some]
  | cons q rest ih =>
    intro m keys m2 keys2 h hk hnd hparts hm
    unfold projectParticipantsLoop at h
    cases hkey : optGetInt q.timeAgg q.period with
    | error e =>
      rw [hkey, exceptBind_error] at h
      cases h
    | ok key =>
      rw [hkey, exceptBind_ok] at h
      have hqAgg : q.timeAgg = some tagg := hparts q (List.mem_cons_self _ _)
      have hkeyEq : ppKey q = .ok key := by
        show optGetInt q.timeAgg q.period = _
        exact hkey
      have hstep := ih _ _ _ _ h
        (by
          rw [alistInsert_fst]
          cases hf : (alistFind key m).isSome with
          | true =>
            rw [if_pos ((alistFind_isSome_mem key m).1 hf), hk]
            simp [hf]
          | false =>
            have hnotin : key ∉ m.map Prod.fst := by
              intro hmem
              rw [(alistFind_isSome_mem key m).2 hmem] at hf
              cases hf
            rw [if_neg hnotin, hk]
            simp [hf])
        (alistInsert_nodup hnd)
        (fun q2 hq2 => hparts q2 (List.mem_cons_of_mem _ hq2))
        (by
          intro kv hkv
          rcases alistInsert_mem hkv with h1 | h1
          · subst h1
            refine ⟨rfl, ?_⟩
            show optGetInt (some tagg) q.period = _
            rw [← hqAgg]
            exact hkey
          · exact hm kv h1)
      refine ⟨hstep.1, hstep.2.1, hstep.2.2.1, ?_, ?_, ?_⟩
      · intro k
        rw [hstep.2.2.2.1 k, alistInsert_fst_mem]
        have hiff : (∃ q2 ∈ q :: rest, ppKey q2 = .ok k) ↔
            (k = key ∨ ∃ q2 ∈ rest, ppKey q2 = .ok k) := by
          constructor
          · rintro ⟨q2, hq2, hq2k⟩
            rcases List.mem_cons.1 hq2 with h1 | h1
            · subst h1
              rw [hkeyEq] at hq2k
              exact Or.inl (Except.ok.inj hq2k).symm
            · exact Or.inr ⟨q2, h1, hq2k⟩
          · rintro (h1 | ⟨q2, hq2, hq2k⟩)
            · exact ⟨q, List.mem_cons_self _ _, by rw [hkeyEq, h1]⟩
            · exact ⟨q2, List.mem_cons_of_mem _ hq2, hq2k⟩
        rw [hiff]
        tauto
      · intro k hunt
        have hne : k ≠ key := by
          intro hh
          exact hunt q (List.mem_cons_self _ _) (by rw [hkeyEq, hh])
        rw [hstep.2.2.2.2.1 k (fun q2 hq2 => hunt q2 (List.mem_cons_of_mem _ hq2))]
        exact alistFind_insert_ne hne _ m
      · intro kv hkv
        have hbase := hstep.2.2.2.2.2 kv hkv
        by_cases hkk : kv.1 = key
        · rw [hkk, alistFind_insert_self] at hbase
          rw [hbase, hkk]
          show ((alistFind key m).getD zeroPPM).invoice = _
          rfl
        · rw [alistFind_insert_ne hkk _ m] at hbase
          exact hbase

/-- C2: the merged per-period sequence is a full outer join of the
invoice aggregation and the participant aggregation on the period key
(every key of either side appears exactly once; an invoice-only key has
an empty participant list; a participant-only key has a zero-amount
invoice summary) and is sorted strictly ascending by period key. -/
theorem C2_outer_join_merge (tagg : TAgg) (p : ProjectKpi)
    (res : List ProjectPeriodKpi) (inv : List InvoicePeriodKpi)
    (parts : List ParticipantsPeriod)
    (hres : GetProjectKpiPerPeriod tagg p = .ok res)
    (hinv : GetInvoiceKpiPerPeriod tagg p.project.invoices = .ok inv)
    (hparts : GetParticipantsPeriodPerPeriod tagg p.detailedEntries = .ok parts) :
    (∀ k : Int,
      res.countP (fun r => decide (ppmKey r = .ok k)) =
        if (∃ i ∈ inv, invKey i = .ok k) ∨ (∃ q ∈ parts, ppKey q = .ok k)
        then 1 else 0) ∧
    (∀ k : Int, ∀ r ∈ res, ppmKey r = .ok k →
      ((∀ q ∈ parts, ppKey q ≠ .ok k) → r.participants = []) ∧
      ((∀ i ∈ inv, invKey i ≠ .ok k) → r.invoice.amount = 0)) ∧
    res.Pairwise (fun r1 r2 => ∃ k1 k2 : Int,
      ppmKey r1 = .ok k1 ∧ ppmKey r2 = .ok k2 ∧ k1 < k2) := by
  unfold GetProjectKpiPerPeriod at hres
  rw [hinv, exceptBind_ok, hparts, exceptBind_ok] at hres
  cases hl1 : projectInvoiceLoop tagg p.project.name inv ([], []) with
  | error e =>
    rw [hl1, exceptBind_error] at hres
    cases hres
  | ok st1 =>
    obtain ⟨m1, keys1⟩ := st1
    rw [hl1, exceptBind_ok] at hres
    dsimp only at hres
    cases hl2 : projectParticipantsLoop tagg p.project.name parts (m1, keys1) with
    | error e =>
      rw [hl2, exceptBind_error] at hres
      cases hres
    | ok st2 =>
      obtain ⟨m2, keys2⟩ := st2
      rw [hl2, exceptBind_ok] at hres
      have hres2 : ((sortInts keys2).map fun k => (alistFind k m2).getD zeroPPM) = res :=
        Except.ok.inj hres
      have hinvMembers := getInvoiceKpiPerPeriod_members tagg _ inv hinv
      have hinvAgg : ∀ i ∈ inv, i.timeAgg = some tagg := fun i hi => (hinvMembers i hi).1
      obtain ⟨hk1, hnd1, hmem1, hset1⟩ :=
        projectInvoiceLoop_props tagg p.project.name inv [] [] m1 keys1 hl1 rfl
          (by simp) hinvAgg (by simp)
      have hpartsMembers := getParticipantsPeriodPerPeriod_members tagg _ parts hparts
      have hpartsAgg : ∀ q ∈ parts, q.timeAgg = some tagg := fun q hq => (hpartsMembers q hq).1
      obtain ⟨hk2, hnd2, hmem2, hset2, huntouched, hinvPres⟩ :=
        projectParticipantsLoop_props tagg p.project.name parts m1 keys1 m2 keys2 hl2
          hk1 hnd1 hpartsAgg
          (fun kv hkv => ⟨(hmem1 kv hkv).1, (hmem1 kv hkv).2.1⟩)
      have hperm : (sortInts keys2).Perm keys2 := sortInts_perm keys2
      have hkeys2nd : keys2.Nodup := hk2 ▸ hnd2
      have hsortnd : (sortInts keys2).Nodup := (hperm.nodup_iff).2 hkeys2nd
      have hmemKeys : ∀ k : Int, k ∈ keys2 ↔ k ∈ m2.map Prod.fst := by
        intro k
        rw [hk2]
      have hlook : ∀ k ∈ m2.map Prod.fst,
          ∃ v, alistFind k m2 = some v ∧ ppmKey v = .ok k ∧ (k, v) ∈ m2 := by
        intro k hkmem
        obtain ⟨⟨k1, v1⟩, hkv, hfst⟩ := List.mem_map.1 hkmem
        have hfst2 : k1 = k := hfst
        subst hfst2
        exact ⟨v1, alistFind_of_mem hnd2 hkv, (hmem2 (k1, v1) hkv).2, hkv⟩
      have hcondIff : ∀ k : Int, k ∈ sortInts keys2 ↔
          ((∃ i ∈ inv, invKey i = .ok k) ∨ (∃ q ∈ parts, ppKey q = .ok k)) := by
        intro k
        rw [hperm.mem_iff, hmemKeys k, hset2 k, hset1 k]
        simp
      refine ⟨?_, ?_, ?_⟩
      · intro k
        rw [← hres2, List.countP_map]
        have hcongr := @List.countP_congr Int
          ((fun r => decide (ppmKey r = .ok k)) ∘
            fun k2 => (alistFind k2 m2).getD zeroPPM)
          (fun k2 => decide (k2 = k))
          (sortInts keys2)
          (by
            intro k2 hk2mem
            have hk2m : k2 ∈ m2.map Prod.fst := (hmemKeys k2).1 (hperm.mem_iff.1 hk2mem)
            obtain ⟨v, hfindv, hkeyv, _⟩ := hlook k2 hk2m
            show decide (ppmKey ((alistFind k2 m2).getD zeroPPM) = .ok k) = true ↔ _
            rw [hfindv]
            simp only [Option.getD_some, decide_eq_true_eq, hkeyv]
            constructor
            · intro hh
              exact Except.ok.inj hh
            · intro hh
              rw [hh])
        rw [hcongr, countP_eq_of_nodup k _ hsortnd]
        by_cases hc : (∃ i ∈ inv, invKey i = .ok k) ∨ (∃ q ∈ parts, ppKey q = .ok k)
        · rw [if_pos ((hcondIff k).2 hc), if_pos hc]
        · rw [if_neg (fun hmem => hc ((hcondIff k).1 hmem)), if_neg hc]
      · intro k r hr hkey
        rw [← hres2] at hr
        obtain ⟨k2, hk2mem, heq⟩ := List.mem_map.1 hr
        have hk2m : k2 ∈ m2.map Prod.fst := (hmemKeys k2).1 (hperm.mem_iff.1 hk2mem)
        obtain ⟨v, hfindv, hkeyv, hkvmem⟩ := hlook k2 hk2m
        have hrv : r = v := by
          rw [← heq, hfindv, Option.getD_some]
        have hkk : k2 = k := by
          rw [hrv, hkeyv] at hkey
          exact Except.ok.inj hkey
        subst hkk
        constructor
        · intro hnoq
          have hfind12 : alistFind k2 m2 = alistFind k2 m1 := huntouched k2 hnoq
          have hfindm1 : alistFind k2 m1 = some v := by
            rw [← hfind12]
            exact hfindv
          rw [hrv]
          exact (hmem1 (k2, v) (alistFind_mem hfindm1)).2.2
        · intro hnoi
          have hknotin1 : k2 ∉ m1.map Prod.fst := by
            intro hmem
            rcases (hset1 k2).1 hmem with h1 | ⟨i, hi, hik⟩
            · simp at h1
            · exact hnoi i hi hik
          have hfindm1 : alistFind k2 m1 = none := by
            cases hf : alistFind k2 m1 with
            | some w =>
              exact absurd (List.mem_map.2 ⟨(k2, w), alistFind_mem hf, rfl⟩) hknotin1
            | none => rfl
          have hpres := hinvPres (k2, v) hkvmem
          rw [hfindm1] at hpres
          rw [hrv]
          show v.invoice.amount = 0
          rw [hpres]
          rfl
      · rw [← hres2, List.pairwise_map]
        have hsorted := sortInts_sorted keys2
        have hndpair : (sortInts keys2).Pairwise (fun a b => a ≠ b) := hsortnd
        refine (hsorted.and hndpair).imp_of_mem ?_
        intro a b ha hb hab
        have ham : a ∈ m2.map Prod.fst := (hmemKeys a).1 (hperm.mem_iff.1 ha)
        have hbm : b ∈ m2.map Prod.fst := (hmemKeys b).1 (hperm.mem_iff.1 hb)
        obtain ⟨v1, hfind1, hkey1, _⟩ := hlook a ham
        obtain ⟨v2, hfind2, hkey2, _⟩ := hlook b hbm
        refine ⟨a, b, ?_, ?_, lt_of_le_of_ne hab.1 hab.2⟩
        · rw [hfind1]
          exact hkey1
        · rw [hfind2]
          exact hkey2

/-- Evaluation form of GetProjectKpiPerPeriod on successful sub-runs. -/
theorem getProjectKpiPerPeriod_eval (tagg : TAgg) (p : ProjectKpi)
    (inv : List InvoicePeriodKpi) (parts : List ParticipantsPeriod)
    (m1 : List (Int × ProjectPeriodKpi)) (keys1 : List Int)
    (m2 : List (Int × ProjectPeriodKpi)) (keys2 : List Int)
    (hinv : GetInvoiceKpiPerPeriod tagg p.project.invoices = .ok inv)
    (hparts : GetParticipantsPeriodPerPeriod tagg p.detailedEntries = .ok parts)
    (h1 : projectInvoiceLoop tagg p.project.name inv ([], []) = .ok (m1, keys1))
    (h2 : projectParticipantsLoop tagg p.project.name parts (m1, keys1) = .ok (m2, keys2)) :
    GetProjectKpiPerPeriod tagg p =
      .ok ((sortInts keys2).map fun k => (alistFind k m2).getD zeroPPM) := by
  unfold GetProjectKpiPerPeriod
  rw [hinv, exceptBind_ok, hparts, exceptBind_ok, h1, exceptBind_ok]
  dsimp only
  rw [h2, exceptBind_ok]
  rfl

/-- Witness for C2 at a project with one invoice and one entry in the
same month. -/
theorem C2_witness :
    ([(⟨"P", some TAgg.month, ⟨2016, 3, 1, 0, 0, 0, true⟩,
        ⟨some TAgg.month, ⟨2016, 3, 1, 0, 0, 0, true⟩, 100⟩,
        [⟨⟨1, "a", "b", "e@x"⟩, 60, 0⟩]⟩ : ProjectPeriodKpi)]).countP
      (fun r => decide (ppmKey r = .ok 201603)) = 1 := by
  have hinv0 : GetInvoiceKpiPerPeriod TAgg.month [⟨"2016-03-15", 100⟩] =
      .ok [⟨some TAgg.month, ⟨2016, 3, 1, 0, 0, 0, true⟩, 100⟩] := by
    rw [getInvoiceKpiPerPeriod_eval TAgg.month _
      [(201603, ⟨some TAgg.month, ⟨2016, 3, 1, 0, 0, 0, true⟩, 100⟩)] [201603]
      (by with_unfolding_all rfl)]
    rw [sortInts, List.mergeSort_singleton]
    rfl
  have hparts0 : GetParticipantsPeriodPerPeriod TAgg.month
      [⟨⟨1, "a", "b", "e@x"⟩, "2016-03-05", 60, true⟩] =
      .ok [⟨some TAgg.month, ⟨2016, 3, 1, 0, 0, 0, true⟩,
        [⟨⟨1, "a", "b", "e@x"⟩, 60, 0⟩]⟩] := by
    rw [getParticipantsPeriodPerPeriod_eval TAgg.month _
      [(201603, ⟨some TAgg.month, ⟨2016, 3, 1, 0, 0, 0, true⟩,
        [⟨⟨1, "a", "b", "e@x"⟩, 60, 0⟩]⟩)] [201603]
      (by with_unfolding_all rfl)]
    simp [sortDescByTotal, List.mergeSort_singleton]
  have hres0 := getProjectKpiPerPeriod_eval TAgg.month
    ⟨⟨"P", 0, 0, 0, [⟨"2016-03-15", 100⟩]⟩,
      [⟨⟨1, "a", "b", "e@x"⟩, "2016-03-05", 60, true⟩]⟩
    [⟨some TAgg.month, ⟨2016, 3, 1, 0, 0, 0, true⟩, 100⟩]
    [⟨some TAgg.month, ⟨2016, 3, 1, 0, 0, 0, true⟩,
      [⟨⟨1, "a", "b", "e@x"⟩, 60, 0⟩]⟩]
    [(201603, ⟨"P", some TAgg.month, ⟨2016, 3, 1, 0, 0, 0, true⟩,
      ⟨some TAgg.month, ⟨2016, 3, 1, 0, 0, 0, true⟩, 100⟩, []⟩)] [201603]
    [(201603, ⟨"P", some TAgg.month, ⟨2016, 3, 1, 0, 0, 0, true⟩,
      ⟨some TAgg.month, ⟨2016, 3, 1, 0, 0, 0, true⟩, 100⟩,
      [⟨⟨1, "a", "b", "e@x"⟩, 60, 0⟩]⟩)] [201603]
    hinv0 hparts0 (by with_unfolding_all rfl) (by with_unfolding_all rfl)
  rw [sortInts, List.mergeSort_singleton] at hres0
  have hres1 : GetProjectKpiPerPeriod TAgg.month
      ⟨⟨"P", 0, 0, 0, [⟨"2016-03-15", 100⟩]⟩,
        [⟨⟨1, "a", "b", "e@x"⟩, "2016-03-05", 60, true⟩]⟩ =
      .ok [⟨"P", some TAgg.month, ⟨2016, 3, 1, 0, 0, 0, true⟩,
        ⟨some TAgg.month, ⟨2016, 3, 1, 0, 0, 0, true⟩, 100⟩,
        [⟨⟨1, "a", "b", "e@x"⟩, 60, 0⟩]⟩] := by
    rw [hres0]
    rfl
  have h := C2_outer_join_merge TAgg.month _ _ _ _ hres1 hinv0 hparts0
  rw [h.1 201603, if_pos]
  exact Or.inl ⟨⟨some TAgg.month, ⟨2016, 3, 1, 0, 0, 0, true⟩, 100⟩,
    List.mem_cons_self _ _, by rfl⟩
